import Mathlib

/-!
Verification development for the vinyl-tracker catalog application
(src/vinyl-tracker.py).

The catalog is a nested mapping: band name -> band, where a band maps
album names to albums, and an album carries an optional image reference
(a file path relative to the application base directory).  Python
strings are embedded as lists of characters (`PyStr`), Python dicts as
association lists whose operations mirror dict lookup / item assignment /
deletion, and the file system of image assets as the list of existing
file paths relative to the base directory.  Every definition below is a
direct translation of the corresponding function in the source file.
-/

set_option maxRecDepth 4000

/-- Python strings, embedded as lists of characters (one entry per code
point, matching Python's `len` and indexing). -/
abbrev PyStr := List Char

/-- Characters stripped by Python's `str.strip()` (the ASCII whitespace
characters relevant to this application). -/
def isPySpace (c : Char) : Bool :=
  (c == ' ') || (c == '\t') || (c == '\n') || (c == '\r') ||
    (c == '\x0b') || (c == '\x0c')

/-- Python `str.strip()`: remove whitespace from both ends. -/
def stripL (s : PyStr) : PyStr :=
  ((s.dropWhile isPySpace).reverse.dropWhile isPySpace).reverse

/-- Python `line.split(" - ")`: split on every non-overlapping occurrence
of the three-character separator, scanning left to right. -/
def splitSep : PyStr → List PyStr
  | [] => [[]]
  | [c] => [[c]]
  | [c, d] => [[c, d]]
  | c :: d :: e :: rest =>
    if (c == ' ') && (d == '-') && (e == ' ') then
      [] :: splitSep rest
    else
      match splitSep (d :: e :: rest) with
      | [] => [[c]]
      | seg :: segs => (c :: seg) :: segs

/-- Occurrence test for the separator `" - "`: true when no window of
three consecutive characters equals the separator. -/
def sepFree : PyStr → Bool
  | [] => true
  | [_] => true
  | [_, _] => true
  | c :: d :: e :: rest =>
    (!((c == ' ') && (d == '-') && (e == ' '))) && sepFree (d :: e :: rest)

/-- Splitting a file's contents into lines at newline characters; the
reading loop uses `readlines` and strips each line, so splitting at
every newline is an equivalent decomposition. -/
def splitNl : PyStr → List PyStr
  | [] => [[]]
  | c :: rest =>
    if c == '\n' then [] :: splitNl rest
    else
      match splitNl rest with
      | [] => [[c]]
      | seg :: segs => (c :: seg) :: segs

/-- Python `"\n".join(lines)`. -/
def joinNl : List PyStr → PyStr
  | [] => []
  | [l] => l
  | l :: rest => l ++ '\n' :: joinNl rest

/-- ASCII lowercasing of one character, as `str.lower()` acts on the
extensions handled by the application. -/
def lowerChar (c : Char) : Char :=
  if 'A' ≤ c ∧ c ≤ 'Z' then Char.ofNat (c.toNat + 32) else c

/-- Python `s.lower()` on a string of ASCII characters. -/
def lowerL (s : PyStr) : PyStr := s.map lowerChar

/-- The characters forbidden in band and album names, from the regular
expression used in `validate_input` and `associate_image`. -/
def forbiddenChars : PyStr := ['<', '>', ':', '\"', '/', '\\', '|', '?', '*']

/-- Test mirroring `re.search` for a forbidden character in a name. -/
def containsForbidden (s : PyStr) : Bool :=
  s.any (fun c => forbiddenChars.contains c)

/-- Translation of `VinylTrackerApp.validate_input` (lines 376-384): the
shared name validation returning a validity flag and a message. -/
def validate_input (name : PyStr) : Bool × String :=
  if name.isEmpty || (stripL name).isEmpty then
    (false, "Name cannot be empty.")
  else if 100 < name.length then
    (false, "Name is too long (maximum 100 characters).")
  else if containsForbidden name then
    (false, "Name contains forbidden characters")
  else
    (true, "")

/-- An album record: `{"image": <relative path or None>}`. -/
structure Album where
  image : Option PyStr
deriving DecidableEq, Repr

/-- A band record: `{"albums": {...}}`, the album dict as an association
list in insertion order (Python dicts preserve insertion order). -/
structure Band where
  albums : List (PyStr × Album)
deriving DecidableEq, Repr

/-- The catalog document: `{"bands": {...}}`. -/
structure Catalog where
  bands : List (PyStr × Band)
deriving DecidableEq, Repr

/-- Python dict lookup `d.get(k)` on an association list. -/
def alLookup (k : PyStr) : List (PyStr × α) → Option α
  | [] => none
  | (k2, v) :: rest => if k2 = k then some v else alLookup k rest

/-- Python dict item assignment `d[k] = v`: replace in place when the key
exists, append otherwise. -/
def alInsert (k : PyStr) (v : α) : List (PyStr × α) → List (PyStr × α)
  | [] => [(k, v)]
  | (k2, v2) :: rest =>
    if k2 = k then (k, v) :: rest else (k2, v2) :: alInsert k v rest

/-- Python dict deletion `del d[k]` (key present in every modeled call). -/
def alErase (k : PyStr) : List (PyStr × α) → List (PyStr × α)
  | [] => []
  | (k2, v2) :: rest =>
    if k2 = k then rest else (k2, v2) :: alErase k rest

/-- Keys of an association list, in order. -/
def alKeys (l : List (PyStr × α)) : List PyStr := l.map Prod.fst

/-- The empty catalog `{"bands": {}}`. -/
def emptyCatalog : Catalog := ⟨[]⟩

/-- Membership of a band name in the catalog. -/
def hasBandB (c : Catalog) (b : PyStr) : Bool :=
  (alLookup b c.bands).isSome

/-- Lookup of an album record through its band. -/
def lookupAlbum (c : Catalog) (b a : PyStr) : Option Album :=
  match alLookup b c.bands with
  | none => none
  | some bd => alLookup a bd.albums

/-- Membership of a (band, album) pair in the catalog. -/
def hasAlbumB (c : Catalog) (b a : PyStr) : Bool :=
  (lookupAlbum c b a).isSome

/-- Total number of album entries in the catalog. -/
def totalAlbums (c : Catalog) : Nat :=
  (c.bands.map (fun p => p.2.albums.length)).sum

/-- Well-formedness invariant guaranteed by Python dicts: keys are unique
at both nesting levels. -/
def Catalog.Wf (c : Catalog) : Prop :=
  (alKeys c.bands).Nodup ∧ ∀ p ∈ c.bands, (alKeys p.2.albums).Nodup

instance (c : Catalog) : Decidable c.Wf := by
  unfold Catalog.Wf; infer_instance

/-- Application state: the in-memory catalog, the set of existing asset
files (paths relative to the base directory), and the history of
snapshots written by `save_data`. -/
structure AppState where
  catalog : Catalog
  fs : List PyStr
  saves : List Catalog
deriving DecidableEq, Repr

/-- Translation of `save_data` (lines 115-125): the whole data dictionary
is written to the inventory file; the model records the snapshot. -/
def save_data (st : AppState) : AppState :=
  { st with saves := st.saves ++ [st.catalog] }

/-- Python string-to-digit-character conversion for one decimal digit. -/
def digitChar (d : Nat) : Char := Char.ofNat (48 + d)

/-- Decimal digits of a natural number, with structural fuel (the fuel
argument only needs to exceed the digit count). -/
def natStrAux : Nat → Nat → PyStr
  | 0, _ => []
  | fuel + 1, n =>
    if n < 10 then [digitChar n]
    else natStrAux fuel (n / 10) ++ [digitChar (n % 10)]

/-- Python `f"{n}"` for a natural number: its decimal representation. -/
def natStr (n : Nat) : PyStr := natStrAux (n + 1) n

/-- Result of `os.path.splitext(path)[1]`: the extension of the path's
base name, taken from its last dot, where the leading dots of the base
name never start an extension (mirroring CPython's `genericpath._splitext`
with separators slash and backslash). -/
def extOf (p : PyStr) : PyStr :=
  let base := (p.reverse.takeWhile (fun c => !((c == '/') || (c == '\\')))).reverse
  let afterDot := base.reverse.takeWhile (fun c => !(c == '.'))
  if afterDot.length = base.length then []
  else
    let dotIdx := base.length - afterDot.length - 1
    let leadDots := (base.takeWhile (fun c => c == '.')).length
    if leadDots < dotIdx then base.drop dotIdx else []

/-- Sanitization of an album name for use as a file name, from
`associate_image` lines 461-462: strip forbidden characters, then replace
spaces with underscores. -/
def sanitizeAlbum (a : PyStr) : PyStr :=
  (a.filter (fun c => !(forbiddenChars.contains c))).map
    (fun c => if c == ' ' then '_' else c)

/-- Collision candidate `f"{name}_{counter}{ext}"` for a given counter. -/
def candName (stem ext2 : PyStr) (k : Nat) : PyStr :=
  stem ++ '_' :: natStr k ++ ext2

/-- The `while os.path.exists(dest_path)` loop of lines 470-473, with
structural fuel; one more unit of fuel than there are existing files
always suffices, because the candidates for distinct counters are
distinct names. -/
def destLoop (fs : List PyStr) (stem ext2 : PyStr) : Nat → Nat → PyStr
  | 0, k => candName stem ext2 k
  | fuel + 1, k =>
    if fs.contains (candName stem ext2 k) then destLoop fs stem ext2 fuel (k + 1)
    else candName stem ext2 k

/-- Destination name chosen by `associate_image` (lines 469-473): the
sanitized name with the extension, or with the first free integer suffix
appended when that name already exists. -/
def destName (fs : List PyStr) (stem ext2 : PyStr) : PyStr :=
  if fs.contains (stem ++ ext2) then destLoop fs stem ext2 (fs.length + 1) 1
  else stem ++ ext2

/-- The allowed extensions `['.jpg', '.jpeg', '.png']` from line 465. -/
def allowedExts : List PyStr := [".jpg".data, ".jpeg".data, ".png".data]

/-- In-place nested assignment
`data["bands"][b]["albums"][a]["image"] = img`; the callers below only
invoke it with the band and album present, matching the selections that
guard the corresponding Python handlers. -/
def setImage (c : Catalog) (b a : PyStr) (img : Option PyStr) : Catalog :=
  match alLookup b c.bands with
  | none => c
  | some bd => ⟨alInsert b ⟨alInsert a ⟨img⟩ bd.albums⟩ c.bands⟩

/-- Translation of `add_band` (lines 386-397): the input dialog rejects
names failing `validate_input` (lines 523-530), then the handler strips
the name, rejects duplicates, inserts an empty band and saves.  The
second component is the error message shown, if any. -/
def add_band (st : AppState) (input : PyStr) : AppState × Option String :=
  if (validate_input input).1 = false then (st, some (validate_input input).2)
  else
    let name := stripL input
    if (alLookup name st.catalog.bands).isSome then
      (st, some "Band already exists.")
    else
      (save_data { st with catalog := ⟨alInsert name ⟨[]⟩ st.catalog.bands⟩ }, none)

/-- Translation of `add_album` (lines 406-423): requires a selected band
(present in the catalog), validates the dialog input, strips it,
re-validates, rejects duplicates within the band, then inserts the album
with an absent image and saves. -/
def add_album (st : AppState) (band input : PyStr) : AppState × Option String :=
  match alLookup band st.catalog.bands with
  | none => (st, some "No band selected.")
  | some bd =>
    if (validate_input input).1 = false then (st, some (validate_input input).2)
    else
      let name := stripL input
      if (validate_input name).1 = false then (st, some (validate_input name).2)
      else if (alLookup name bd.albums).isSome then
        (st, some "Album already exists for this band.")
      else
        (save_data { st with catalog :=
          ⟨alInsert band ⟨alInsert name ⟨none⟩ bd.albums⟩ st.catalog.bands⟩ }, none)

/-- Translation of `delete_band` (lines 398-404), after the confirmation
dialog: the band entry is deleted from the dict and the catalog is
saved.  No file-system operation occurs in the source function. -/
def delete_band (st : AppState) (band : PyStr) : AppState :=
  save_data { st with catalog := ⟨alErase band st.catalog.bands⟩ }

/-- Translation of `associate_image` (lines 445-489).  The band and album
are the current selection (present in the catalog); `decodable` reports
whether `PIL.Image.open` succeeds on the chosen file.  In order: decode
check, sanitized name, extension check, collision-free destination, copy
(the destination appears in the file list), reference update, save. -/
def associate_image (st : AppState) (b a imgPath : PyStr) (decodable : Bool) :
    AppState × Option String :=
  match lookupAlbum st.catalog b a with
  | none => (st, some "No band or album selected.")
  | some _ =>
    if !decodable then (st, some "Selected file is not a valid image.")
    else
      let stem := "images/".data ++ sanitizeAlbum a
      let ext2 := lowerL (extOf imgPath)
      if !(allowedExts.contains ext2) then
        (st, some "Unsupported file type selected. Please choose a JPG or PNG file.")
      else
        let dest := destName st.fs stem ext2
        (save_data { st with
          fs := st.fs ++ [dest]
          catalog := setImage st.catalog b a (some dest) }, none)

/-- Translation of `remove_image` (lines 491-506): reads the selected
album's image reference, deletes the referenced file when it exists,
clears the reference, saves.  The result is `none` in the situations
where the Python code would raise an uncaught `KeyError` (selection not
present in the catalog), which cannot arise from the modeled flows. -/
def remove_image (st : AppState) (b a : PyStr) : Option AppState :=
  match alLookup b st.catalog.bands with
  | none => none
  | some bd =>
    match alLookup a bd.albums with
    | none => none
    | some al =>
      let fs2 :=
        match al.image with
        | some rel => if st.fs.contains rel then st.fs.erase rel else st.fs
        | none => st.fs
      some (save_data { st with fs := fs2, catalog := setImage st.catalog b a none })

/-- Sorting of a list of names, as Python `sorted` on strings:
lexicographic comparison by code point. -/
def strLe : PyStr → PyStr → Bool
  | [], _ => true
  | _ :: _, [] => false
  | c :: u, d :: v => if c = d then strLe u v else decide (c < d)

/-- Insertion of a name into an ascending list, the auxiliary step of
sorting. -/
def insertSorted (x : PyStr) : List PyStr → List PyStr
  | [] => [x]
  | y :: rest => if strLe x y then x :: y :: rest else y :: insertSorted x rest

/-- Python `sorted(keys)`: the keys in ascending lexicographic order
(insertion sort; the keys of a dict are distinct, so any ascending sort
yields the list Python produces). -/
def sortStr (l : List PyStr) : List PyStr := l.foldr insertSorted []

/-- One export line `f"{band} - {album}"`. -/
def lineFor (b a : PyStr) : PyStr := b ++ ' ' :: '-' :: ' ' :: a

/-- Lines produced by `export_collection` (lines 567-577): bands sorted,
albums sorted within each band, one line per pair. -/
def export_lines (c : Catalog) : List PyStr :=
  (sortStr (alKeys c.bands)).flatMap (fun b =>
    match alLookup b c.bands with
    | none => []
    | some bd => (sortStr (alKeys bd.albums)).map (fun a => lineFor b a))

/-- Translation of `export_collection`: the file contents written, namely
the lines joined by a newline (no trailing newline is appended). -/
def export_collection (c : Catalog) : PyStr := joinNl (export_lines c)

/-- Processing of one line of an imported file (lines 597-613): strip,
skip empty lines, accept only lines splitting on `" - "` into exactly two
parts whose stripped forms are non-empty, create the band when absent,
create the album when absent and count it. -/
def importLine (st : Catalog × Nat) (lineRaw : PyStr) : Catalog × Nat :=
  let c := st.1
  let n := st.2
  let line := stripL lineRaw
  if line.isEmpty then (c, n)
  else
    match splitSep line with
    | [b0, a0] =>
      let b := stripL b0
      let a := stripL a0
      if b.isEmpty || a.isEmpty then (c, n)
      else
        let c1 := if (alLookup b c.bands).isSome then c
          else Catalog.mk (alInsert b ⟨[]⟩ c.bands)
        match alLookup b c1.bands with
        | none => (c1, n)
        | some bd =>
          if (alLookup a bd.albums).isSome then (c1, n)
          else (⟨alInsert b ⟨alInsert a ⟨none⟩ bd.albums⟩ c1.bands⟩, n + 1)
    | _ => (c, n)

/-- Translation of `import_collection` (lines 583-620) applied to the
contents of the chosen file: fold the line processor over the lines, then
save once, and report the count of newly created album entries. -/
def import_collection (st : AppState) (content : PyStr) : AppState × Nat :=
  let r := (splitNl content).foldl importLine (st.catalog, 0)
  (save_data { st with catalog := r.1 }, r.2)

/-- Outcome of opening and parsing the inventory file in `load_data`:
the file may be absent, present but unparseable, or parsed into a
catalog-shaped document. -/
inductive LoadInput where
  | absent : LoadInput
  | malformed : LoadInput
  | parsed : Catalog → LoadInput

/-- Normalization of one album record in the loop of `load_data` (lines
107-111): an image field equal to the empty string becomes absent. -/
def normAlbum (al : Album) : Album :=
  ⟨if al.image = some [] then none else al.image⟩

/-- Normalization of one band record: every album is normalized. -/
def normBand (bd : Band) : Band :=
  ⟨bd.albums.map (fun q => (q.1, normAlbum q.2))⟩

/-- Normalization loop of `load_data` (lines 107-111): every album image
field equal to the empty string becomes the absent value. -/
def normalize_images (c : Catalog) : Catalog :=
  ⟨c.bands.map (fun p => (p.1, normBand p.2))⟩

/-- Translation of `load_data` (lines 90-113): absent file or parse error
yield the empty catalog (the latter after reporting a recoverable error,
recorded in the boolean), the parsed document is normalized, and the
result is saved immediately.  The components are the in-memory catalog,
the snapshots saved during the call, and the error-reported flag. -/
def load_data : LoadInput → Catalog × List Catalog × Bool
  | .absent =>
    let c := normalize_images emptyCatalog
    (c, [c], false)
  | .malformed =>
    let c := normalize_images emptyCatalog
    (c, [c], true)
  | .parsed c0 =>
    let c := normalize_images c0
    (c, [c], false)

/-! Association-list lemmas: the dict operations interact as expected. -/

section AList

variable {α β : Type} {k k2 : PyStr} {v w : α} {l : List (PyStr × α)}

theorem alLookup_insert_self (k : PyStr) (v : α) (l : List (PyStr × α)) :
    alLookup k (alInsert k v l) = some v := by
  induction l with
  | nil => simp [alInsert, alLookup]
  | cons p rest ih =>
    by_cases h : p.1 = k
    · simp [alInsert, alLookup, h]
    · simp [alInsert, alLookup, h, ih]

theorem alLookup_insert_ne (h : k2 ≠ k) (v : α) (l : List (PyStr × α)) :
    alLookup k2 (alInsert k v l) = alLookup k2 l := by
  induction l with
  | nil => simp [alInsert, alLookup, Ne.symm h]
  | cons p rest ih =>
    by_cases h2 : p.1 = k
    · simp [alInsert, alLookup, h2, Ne.symm h]
    · by_cases h3 : p.1 = k2
      · simp [alInsert, alLookup, h2, h3, h]
      · simp [alInsert, alLookup, h2, h3, ih]

theorem alInsert_length_new (hnone : alLookup k l = none) (v : α) :
    (alInsert k v l).length = l.length + 1 := by
  induction l with
  | nil => simp [alInsert]
  | cons p rest ih =>
    by_cases h : p.1 = k
    · simp [alLookup, h] at hnone
    · simp only [alLookup, if_neg h] at hnone
      simp [alInsert, if_neg h, ih hnone]

theorem alInsert_length_some (hsome : (alLookup k l).isSome) (v : α) :
    (alInsert k v l).length = l.length := by
  induction l with
  | nil => simp [alLookup] at hsome
  | cons p rest ih =>
    by_cases h : p.1 = k
    · simp [alInsert, h]
    · simp only [alLookup, if_neg h] at hsome
      simp [alInsert, if_neg h, ih hsome]

theorem alLookup_isSome_iff (k : PyStr) (l : List (PyStr × α)) :
    (alLookup k l).isSome ↔ k ∈ alKeys l := by
  induction l with
  | nil => simp [alLookup, alKeys]
  | cons p rest ih =>
    simp only [alKeys, List.map_cons, List.mem_cons]
    by_cases h : p.1 = k
    · simp only [alLookup, if_pos h, Option.isSome_some, true_iff]
      exact Or.inl h.symm
    · simp only [alLookup, if_neg h]
      constructor
      · intro hs
        exact Or.inr (ih.mp hs)
      · intro hm
        rcases hm with h1 | h1
        · exact absurd h1.symm h
        · exact ih.mpr h1

theorem alLookup_eq_none_of_not_mem (h : k ∉ alKeys l) : alLookup k l = none := by
  induction l with
  | nil => simp [alLookup]
  | cons p rest ih =>
    simp only [alKeys, List.map_cons, List.mem_cons, not_or] at h
    have hne : p.1 ≠ k := fun hh => h.1 hh.symm
    simp only [alLookup, if_neg hne]
    exact ih h.2

theorem alLookup_erase_ne (h : k2 ≠ k) (l : List (PyStr × α)) :
    alLookup k2 (alErase k l) = alLookup k2 l := by
  induction l with
  | nil => simp [alErase]
  | cons p rest ih =>
    by_cases h2 : p.1 = k
    · simp [alErase, alLookup, h2, Ne.symm h]
    · by_cases h3 : p.1 = k2
      · simp [alErase, alLookup, h2, h3, h]
      · simp [alErase, alLookup, h2, h3, ih]

theorem alLookup_erase_self (hnd : (alKeys l).Nodup) (k : PyStr) :
    alLookup k (alErase k l) = none := by
  induction l with
  | nil => simp [alErase, alLookup]
  | cons p rest ih =>
    simp only [alKeys, List.map_cons, List.nodup_cons] at hnd
    by_cases h : p.1 = k
    · simp only [alErase, if_pos h]
      refine alLookup_eq_none_of_not_mem ?_
      rw [← h]
      exact hnd.1
    · simp only [alErase, if_neg h, alLookup, if_neg h]
      exact ih hnd.2

theorem alLookup_eq_some_mem (h : alLookup k l = some v) : (k, v) ∈ l := by
  induction l with
  | nil => simp [alLookup] at h
  | cons p rest ih =>
    by_cases h2 : p.1 = k
    · simp only [alLookup, if_pos h2, Option.some.injEq] at h
      exact List.mem_cons.mpr (Or.inl (by rw [← h2, ← h]))
    · simp only [alLookup, if_neg h2] at h
      exact List.mem_cons_of_mem _ (ih h)

theorem alLookup_of_mem (hnd : (alKeys l).Nodup) (h : (k, v) ∈ l) :
    alLookup k l = some v := by
  induction l with
  | nil => simp at h
  | cons p rest ih =>
    simp only [alKeys, List.map_cons, List.nodup_cons] at hnd
    rcases List.mem_cons.mp h with h1 | h1
    · rw [← h1]
      simp [alLookup]
    · have hne : p.1 ≠ k := by
        intro hh
        apply hnd.1
        rw [hh]
        exact List.mem_map_of_mem Prod.fst h1
      simp only [alLookup, if_neg hne]
      exact ih hnd.2 h1

theorem alLookup_map_value (f : α → β) (k : PyStr) (l : List (PyStr × α)) :
    alLookup k (l.map (fun p => (p.1, f p.2))) = (alLookup k l).map f := by
  induction l with
  | nil => simp [alLookup]
  | cons p rest ih =>
    by_cases h : p.1 = k
    · simp [alLookup, h]
    · simp [alLookup, h, ih]

theorem alKeys_insert_new (hnone : alLookup k l = none) (v : α) :
    alKeys (alInsert k v l) = alKeys l ++ [k] := by
  induction l with
  | nil => simp [alInsert, alKeys]
  | cons p rest ih =>
    by_cases h : p.1 = k
    · simp [alLookup, h] at hnone
    · simp only [alLookup, if_neg h] at hnone
      have h2 := ih hnone
      simp only [alKeys, List.map_cons] at h2 ⊢
      simp [alInsert, if_neg h, h2]

end AList

/-! String lemmas: stripping, separator splitting, line splitting. -/

/-- A string whose first character is not whitespace (vacuously true when
empty). -/
def headNotSpace : PyStr → Bool
  | [] => true
  | c :: _ => !(isPySpace c)

theorem dropWhile_eq_self_of_head (l : PyStr) (h : headNotSpace l = true) :
    l.dropWhile isPySpace = l := by
  cases l with
  | nil => rfl
  | cons c t =>
    simp only [headNotSpace, Bool.not_eq_true'] at h
    simp [List.dropWhile_cons, h]

theorem headNotSpace_of_dropWhile_eq (l : PyStr) (h : l.dropWhile isPySpace = l) :
    headNotSpace l = true := by
  cases l with
  | nil => rfl
  | cons c t =>
    by_cases hc : isPySpace c = true
    · rw [List.dropWhile_cons, if_pos hc] at h
      have hle := (List.dropWhile_sublist (l := t) isPySpace).length_le
      rw [h] at hle
      simp at hle
    · simp only [Bool.not_eq_true] at hc
      simp [headNotSpace, hc]

theorem stripL_eq_self_intro (l : PyStr) (h1 : headNotSpace l = true)
    (h2 : headNotSpace l.reverse = true) : stripL l = l := by
  unfold stripL
  rw [dropWhile_eq_self_of_head l h1, dropWhile_eq_self_of_head l.reverse h2,
    List.reverse_reverse]

theorem stripL_eq_self_elim (l : PyStr) (h : stripL l = l) :
    headNotSpace l = true ∧ headNotSpace l.reverse = true := by
  have hsub1 : (l.dropWhile isPySpace).Sublist l := List.dropWhile_sublist _
  have hlen2 : (stripL l).length ≤ (l.dropWhile isPySpace).length := by
    unfold stripL
    rw [List.length_reverse]
    have := (List.dropWhile_sublist (l := (l.dropWhile isPySpace).reverse) isPySpace).length_le
    simpa using this
  have hleq : (l.dropWhile isPySpace).length = l.length := by
    have := congrArg List.length h
    have h2 := hsub1.length_le
    omega
  have hd : l.dropWhile isPySpace = l := hsub1.eq_of_length hleq
  refine ⟨headNotSpace_of_dropWhile_eq l hd, ?_⟩
  have h2 : (l.reverse.dropWhile isPySpace).reverse = l := by
    unfold stripL at h
    rw [hd] at h
    exact h
  have h3 : l.reverse.dropWhile isPySpace = l.reverse := by
    have := congrArg List.reverse h2
    simpa using this
  exact headNotSpace_of_dropWhile_eq l.reverse h3

theorem headNotSpace_append (u v : PyStr) (hu : u ≠ []) (h : headNotSpace u = true) :
    headNotSpace (u ++ v) = true := by
  cases u with
  | nil => exact absurd rfl hu
  | cons c t => simpa [headNotSpace] using h

theorem splitSep_ne_nil (l : PyStr) : splitSep l ≠ [] := by
  cases l with
  | nil => simp [splitSep]
  | cons c t =>
    cases t with
    | nil => simp [splitSep]
    | cons d t2 =>
      cases t2 with
      | nil => simp [splitSep]
      | cons e rest =>
        by_cases hc : ((c == ' ') && (d == '-') && (e == ' ')) = true
        · simp [splitSep, hc]
        · simp only [splitSep, hc]
          simp only [Bool.false_eq_true, if_false]
          cases h : splitSep (d :: e :: rest) <;> simp

theorem sepFree_splitSep (l : PyStr) (h : sepFree l = true) : splitSep l = [l] := by
  induction l with
  | nil => simp [splitSep]
  | cons c t ih =>
    cases t with
    | nil => simp [splitSep]
    | cons d t2 =>
      cases t2 with
      | nil => simp [splitSep]
      | cons e rest =>
        simp only [sepFree, Bool.and_eq_true, Bool.not_eq_true'] at h
        simp [splitSep, h.1, ih h.2]

theorem splitSep_append_sep (u v : PyStr) (hu : sepFree (u ++ [' ']) = true) :
    splitSep (u ++ ' ' :: '-' :: ' ' :: v) = u :: splitSep v := by
  induction u with
  | nil => simp [splitSep]
  | cons c u ih =>
    cases u with
    | nil =>
      show splitSep (c :: ' ' :: '-' :: ' ' :: v) = [c] :: splitSep v
      have h1 : splitSep (' ' :: '-' :: ' ' :: v) = [] :: splitSep v := by
        simp [splitSep]
      simp [splitSep, h1]
    | cons d u2 =>
      cases u2 with
      | nil =>
        show splitSep (c :: d :: ' ' :: '-' :: ' ' :: v) = [c, d] :: splitSep v
        simp only [sepFree, Bool.and_eq_true, Bool.not_eq_true'] at hu
        have h2 : splitSep (d :: ' ' :: '-' :: ' ' :: v) = [d] :: splitSep v := by
          have h1 : splitSep (' ' :: '-' :: ' ' :: v) = [] :: splitSep v := by
            simp [splitSep]
          simp [splitSep, h1]
        have hcond : ((c == ' ') && (d == '-') && (' ' == ' ')) = false := by
          simpa using hu.1
        simp [splitSep, hcond, h2]
        intro h1 h2
        rw [h1, h2] at hcond
        simp at hcond
      | cons e u3 =>
        show splitSep (c :: d :: e :: (u3 ++ ' ' :: '-' :: ' ' :: v)) =
          (c :: d :: e :: u3) :: splitSep v
        simp only [List.cons_append] at hu
        simp only [sepFree, Bool.and_eq_true, Bool.not_eq_true'] at hu
        have htail := ih hu.2
        simp only [List.cons_append] at htail
        simp [splitSep, hu.1, htail]

theorem sepFree_of_append_right (u v : PyStr) (h : sepFree (u ++ v) = true) :
    sepFree u = true := by
  induction u with
  | nil => rfl
  | cons c t ih =>
    cases t with
    | nil => rfl
    | cons d t2 =>
      cases t2 with
      | nil => rfl
      | cons e rest =>
        simp only [List.cons_append] at h
        simp only [sepFree, Bool.and_eq_true, Bool.not_eq_true'] at h
        have h2 : sepFree (d :: e :: rest) = true := ih (by simpa using h.2)
        simp [sepFree, h.1, h2]

theorem splitNl_no_nl (l : PyStr) (h : '\n' ∉ l) : splitNl l = [l] := by
  induction l with
  | nil => simp [splitNl]
  | cons c t ih =>
    simp only [List.mem_cons, not_or] at h
    have hc : (c == '\n') = false := by
      simpa using fun hh => h.1 hh.symm
    simp [splitNl, hc, ih h.2]

theorem splitNl_append (u v : PyStr) (hu : '\n' ∉ u) :
    splitNl (u ++ '\n' :: v) = u :: splitNl v := by
  induction u with
  | nil => simp [splitNl]
  | cons c t ih =>
    simp only [List.mem_cons, not_or] at hu
    have hc : (c == '\n') = false := by
      simpa using fun hh => hu.1 hh.symm
    have ht := ih hu.2
    simp [splitNl, hc, ht]

theorem splitNl_joinNl (ls : List PyStr) (h : ∀ l ∈ ls, '\n' ∉ l) (hne : ls ≠ []) :
    splitNl (joinNl ls) = ls := by
  induction ls with
  | nil => exact absurd rfl hne
  | cons l rest ih =>
    cases rest with
    | nil =>
      show splitNl (joinNl [l]) = [l]
      exact splitNl_no_nl l (h l (by simp))
    | cons l2 rest2 =>
      show splitNl (l ++ '\n' :: joinNl (l2 :: rest2)) = l :: l2 :: rest2
      rw [splitNl_append l _ (h l (by simp))]
      rw [ih (fun x hx => h x (by simp [hx])) (by simp)]

/-! Decimal counters and the collision-avoidance loop of `associate_image`. -/

/-- Numeric value of a decimal digit string, a left inverse used to show
distinct counters yield distinct file names. -/
def strVal (l : PyStr) : Nat := l.foldl (fun acc c => 10 * acc + (c.toNat - 48)) 0

theorem strVal_append_digit (l : PyStr) (c : Char) :
    strVal (l ++ [c]) = 10 * strVal l + (c.toNat - 48) := by
  unfold strVal
  rw [List.foldl_append]
  rfl

theorem digitChar_toNat (d : Nat) (h : d < 10) : (digitChar d).toNat = 48 + d := by
  unfold digitChar
  interval_cases d <;> decide

theorem strVal_natStrAux (fuel : Nat) : ∀ n, n < 10 ^ fuel →
    strVal (natStrAux fuel n) = n := by
  induction fuel with
  | zero =>
    intro n h
    simp at h
    simp [h, natStrAux, strVal]
  | succ fuel ih =>
    intro n h
    by_cases h10 : n < 10
    · simp [natStrAux, h10, strVal, digitChar_toNat n h10]
    · have hdiv : n / 10 < 10 ^ fuel := by
        rw [Nat.div_lt_iff_lt_mul (by norm_num)]
        calc n < 10 ^ (fuel + 1) := h
        _ = 10 ^ fuel * 10 := by ring
      simp only [natStrAux, h10, if_false]
      rw [strVal_append_digit, ih (n / 10) hdiv,
        digitChar_toNat (n % 10) (Nat.mod_lt n (by norm_num))]
      omega

theorem strVal_natStr (n : Nat) : strVal (natStr n) = n := by
  unfold natStr
  refine strVal_natStrAux (n + 1) n ?_
  calc n < 10 ^ n := Nat.lt_pow_self (by norm_num) n
  _ ≤ 10 ^ (n + 1) := Nat.pow_le_pow_right (by norm_num) (by omega)

theorem natStr_injective (m n : Nat) (h : natStr m = natStr n) : m = n := by
  have := congrArg strVal h
  rwa [strVal_natStr, strVal_natStr] at this

theorem natStr_ne_nil (n : Nat) : natStr n ≠ [] := by
  unfold natStr natStrAux
  by_cases h : n < 10
  · simp [h]
  · simp [h]

theorem candName_injective (stem ext2 : PyStr) (j k : Nat)
    (h : candName stem ext2 j = candName stem ext2 k) : j = k := by
  unfold candName at h
  rw [List.append_assoc, List.append_assoc] at h
  have h1 := List.append_cancel_left h
  simp only [List.cons_append] at h1
  have h2 : natStr j ++ ext2 = natStr k ++ ext2 := by
    injection h1
  exact natStr_injective j k (List.append_cancel_right h2)

theorem base_ne_candName (stem ext2 : PyStr) (j : Nat) :
    stem ++ ext2 ≠ candName stem ext2 j := by
  intro h
  have hlen := congrArg List.length h
  simp [candName] at hlen
  have := natStr_ne_nil j
  have : 0 < (natStr j).length := List.length_pos.mpr this
  omega

theorem destLoop_spec (fs : List PyStr) (stem ext2 : PyStr) :
    ∀ fuel k n, k ≤ n → n - k < fuel →
    fs.contains (candName stem ext2 n) = false →
    (∀ j, k ≤ j → j < n → fs.contains (candName stem ext2 j) = true) →
    destLoop fs stem ext2 fuel k = candName stem ext2 n := by
  intro fuel
  induction fuel with
  | zero => omega
  | succ fuel ih =>
    intro k n hkn hfuel hfree hbusy
    by_cases hk : fs.contains (candName stem ext2 k) = true
    · have hne : k ≠ n := by
        intro hh
        rw [hh] at hk
        rw [hfree] at hk
        exact Bool.false_ne_true hk
      have hlt : k < n := lt_of_le_of_ne hkn hne
      simp only [destLoop, hk, if_true]
      exact ih (k + 1) n (by omega) (by omega) hfree
        (fun j hj1 hj2 => hbusy j (by omega) hj2)
    · have hkn2 : n ≤ k := by
        by_contra hcon
        exact hk (hbusy k le_rfl (by omega))
      have : k = n := le_antisymm hkn hkn2
      subst this
      simp only [destLoop, hk]
      simp only [Bool.false_eq_true, if_false]

theorem contains_iff_mem {α : Type} [BEq α] [LawfulBEq α] (l : List α) (a : α) :
    l.contains a = true ↔ a ∈ l := by
  simp [List.contains]

theorem exists_free_candName (fs : List PyStr) (stem ext2 : PyStr) :
    ∃ n, 1 ≤ n ∧ n ≤ fs.length + 1 ∧ fs.contains (candName stem ext2 n) = false := by
  by_contra hcon
  push_neg at hcon
  have hall : ∀ n, 1 ≤ n → n ≤ fs.length + 1 → candName stem ext2 n ∈ fs := by
    intro n h1 h2
    have := hcon n h1 h2
    rcases hb : fs.contains (candName stem ext2 n) with _ | _
    · exact absurd hb this
    · exact (contains_iff_mem fs _).mp hb
  have hnd : ((List.range' 1 (fs.length + 1)).map (candName stem ext2)).Nodup := by
    refine List.Nodup.map ?_ (List.nodup_range' 1 (fs.length + 1))
    intro x y hxy
    exact candName_injective stem ext2 x y hxy
  have hsub : ((List.range' 1 (fs.length + 1)).map (candName stem ext2)) ⊆ fs := by
    intro x hx
    rcases List.mem_map.mp hx with ⟨n, hn, rfl⟩
    rcases List.mem_range'.mp hn with ⟨i, hi, rfl⟩
    exact hall (1 + 1 * i) (by omega) (by omega)
  have hle := (hnd.subperm hsub).length_le
  simp [List.length_range'] at hle

theorem destName_base (fs : List PyStr) (stem ext2 : PyStr)
    (h : fs.contains (stem ++ ext2) = false) :
    destName fs stem ext2 = stem ++ ext2 := by
  unfold destName
  rw [h]
  simp

theorem destName_loop (fs : List PyStr) (stem ext2 : PyStr) (n : Nat)
    (hbase : fs.contains (stem ++ ext2) = true) (h1 : 1 ≤ n)
    (hfree : fs.contains (candName stem ext2 n) = false)
    (hbusy : ∀ j, 1 ≤ j → j < n → fs.contains (candName stem ext2 j) = true) :
    destName fs stem ext2 = candName stem ext2 n := by
  have hbound : n ≤ fs.length + 1 := by
    by_contra hcon
    push_neg at hcon
    have hnd : ((List.range' 1 (fs.length + 1)).map (candName stem ext2)).Nodup := by
      refine List.Nodup.map ?_ (List.nodup_range' 1 (fs.length + 1))
      intro x y hxy
      exact candName_injective stem ext2 x y hxy
    have hsub : ((List.range' 1 (fs.length + 1)).map (candName stem ext2)) ⊆ fs := by
      intro x hx
      rcases List.mem_map.mp hx with ⟨m, hm, rfl⟩
      rcases List.mem_range'.mp hm with ⟨i, hi, rfl⟩
      exact (contains_iff_mem fs _).mp (hbusy (1 + 1 * i) (by omega) (by omega))
    have hle := (hnd.subperm hsub).length_le
    simp [List.length_range'] at hle
  simp only [destName, hbase, if_true]
  exact destLoop_spec fs stem ext2 (fs.length + 1) 1 n h1 (by omega) hfree
    (fun j hj1 hj2 => hbusy j hj1 hj2)

theorem destName_not_mem (fs : List PyStr) (stem ext2 : PyStr) :
    fs.contains (destName fs stem ext2) = false := by
  by_cases hbase : fs.contains (stem ++ ext2) = true
  · have hex : ∃ n, 1 ≤ n ∧ fs.contains (candName stem ext2 n) = false := by
      rcases exists_free_candName fs stem ext2 with ⟨n, h1, _, h3⟩
      exact ⟨n, h1, h3⟩
    have hP : ∃ n, 1 ≤ n ∧ fs.contains (candName stem ext2 n) = false := hex
    let n0 := Nat.find hP
    have hspec := Nat.find_spec hP
    have hmin := fun m (hm : m < n0) => Nat.find_min hP hm
    have hres : destName fs stem ext2 = candName stem ext2 n0 := by
      refine destName_loop fs stem ext2 n0 hbase hspec.1 hspec.2 ?_
      intro j hj1 hj2
      have := hmin j hj2
      push_neg at this
      rcases hb : fs.contains (candName stem ext2 j) with _ | _
      · exact absurd hb (by
          intro hfalse
          exact absurd hfalse (by simpa using this hj1))
      · rfl
    rw [hres]
    exact hspec.2
  · simp only [Bool.not_eq_true] at hbase
    rw [destName_base fs stem ext2 hbase]
    exact hbase

/-! Claim C6: name validation. -/

/-- C6 (counterexample): the single-space name is a non-empty string of at
most 100 characters containing no forbidden character, yet `validate_input`
rejects it, contradicting the claim's acceptance clause. -/
theorem validate_input_cex :
    ([' '] : PyStr) ≠ [] ∧ ([' '] : PyStr).length ≤ 100 ∧
    containsForbidden [' '] = false ∧ (validate_input [' ']).1 = false := by
  decide

/-- C6 (amended): validation rejects the empty string, every
whitespace-only string, every string longer than 100 characters and every
string containing a forbidden character, and accepts every string of at
most 100 characters that contains at least one non-whitespace character
and none of the forbidden characters. -/
theorem validate_input_spec :
    ((validate_input []).1 = false) ∧
    (∀ s : PyStr, (stripL s).isEmpty = true → (validate_input s).1 = false) ∧
    (∀ s : PyStr, 100 < s.length → (validate_input s).1 = false) ∧
    (∀ s : PyStr, ∀ c, c ∈ s → c ∈ forbiddenChars → (validate_input s).1 = false) ∧
    (∀ s : PyStr, (stripL s).isEmpty = false → s.length ≤ 100 →
      containsForbidden s = false → (validate_input s).1 = true) := by
  refine ⟨by decide, ?_, ?_, ?_, ?_⟩
  · intro s h
    simp [validate_input, h]
  · intro s h
    by_cases h1 : (s.isEmpty || (stripL s).isEmpty) = true
    · simp [validate_input, h1]
    · simp [validate_input, h1, h]
  · intro s c hc hf
    have hcf : containsForbidden s = true := by
      unfold containsForbidden
      rw [List.any_eq_true]
      exact ⟨c, hc, (contains_iff_mem forbiddenChars c).mpr hf⟩
    by_cases h1 : (s.isEmpty || (stripL s).isEmpty) = true
    · simp [validate_input, h1]
    · by_cases h2 : 100 < s.length
      · simp [validate_input, h1, h2]
      · simp [validate_input, h1, h2, hcf]
  · intro s h1 h2 h3
    have hse : s.isEmpty = false := by
      cases s with
      | nil => simp [stripL] at h1
      | cons c t => rfl
    have hc1 : (s.isEmpty || (stripL s).isEmpty) = false := by
      rw [hse, h1]
      rfl
    have hlen : ¬(100 < s.length) := by omega
    simp [validate_input, hc1, hlen, h3]

/-- C6 (witness): the amended validation theorem applied to concrete
names: a clean 100-character name is accepted; a 101-character name, a
name with a forbidden character and the empty name are rejected. -/
theorem validate_input_spec_witness :
    (validate_input (List.replicate 100 'a')).1 = true ∧
    (validate_input (List.replicate 101 'a')).1 = false ∧
    (validate_input ['a', '?']).1 = false ∧
    (validate_input []).1 = false :=
  ⟨validate_input_spec.2.2.2.2 (List.replicate 100 'a') (by decide) (by decide) (by decide),
   validate_input_spec.2.2.1 (List.replicate 101 'a') (by decide),
   validate_input_spec.2.2.2.1 ['a', '?'] '?' (by decide) (by decide),
   validate_input_spec.1⟩

/-! Claim C10: import performs no name validation. -/

/-- C10: importing the line `Wh? - Alb` creates the band `Wh?`, whose name
contains a character forbidden by the shared validation, so imported names
can violate the validity property `add_band` and `add_album` enforce. -/
theorem import_no_validation :
    hasBandB (import_collection ⟨emptyCatalog, [], []⟩ "Wh? - Alb".data).1.catalog
      "Wh?".data = true ∧
    (validate_input "Wh?".data).1 = false := by
  decide

/-! Claim C3: loading the catalog file. -/

/-- C3: `load_data` yields the empty catalog when the file is absent,
reports a recoverable error and yields the empty catalog when the file is
unparseable, normalizes every empty-string image field of a parsed
document to the absent value, and saves exactly the loaded catalog
immediately in every case. -/
theorem load_data_spec :
    ((load_data .absent).1 = emptyCatalog ∧ (load_data .absent).2.2 = false) ∧
    ((load_data .malformed).1 = emptyCatalog ∧ (load_data .malformed).2.2 = true) ∧
    (∀ c : Catalog, ∀ b a : PyStr,
      lookupAlbum (load_data (.parsed c)).1 b a =
        (lookupAlbum c b a).map
          (fun al => ⟨if al.image = some [] then none else al.image⟩)) ∧
    (∀ inp : LoadInput, (load_data inp).2.1 = [(load_data inp).1]) := by
  refine ⟨⟨rfl, rfl⟩, ⟨rfl, rfl⟩, ?_, ?_⟩
  · intro c b a
    show lookupAlbum (normalize_images c) b a = _
    unfold lookupAlbum normalize_images
    rw [show (⟨c.bands.map (fun p => (p.1, normBand p.2))⟩ : Catalog).bands
      = c.bands.map (fun p => (p.1, normBand p.2)) from rfl]
    rw [alLookup_map_value]
    cases halb : alLookup b c.bands with
    | none => rfl
    | some bd =>
      simp only [Option.map]
      unfold normBand
      rw [show (⟨bd.albums.map (fun q => (q.1, normAlbum q.2))⟩ : Band).albums
        = bd.albums.map (fun q => (q.1, normAlbum q.2)) from rfl]
      rw [alLookup_map_value]
      cases ha : alLookup a bd.albums with
      | none => rfl
      | some al => rfl
  · intro inp
    cases inp <;> rfl

/-! Claim C1: deleting a band. -/

/-- C1 (counterexample): deleting band `B`, whose album `A` has the image
asset `images/A.png` present on disk, removes the band but leaves the
asset file in place, contradicting the claim that the referenced asset is
deleted before the band's removal. -/
theorem delete_band_keeps_assets_cex :
    (delete_band
      ⟨⟨[("B".data, ⟨[("A".data, ⟨some "images/A.png".data⟩)]⟩)]⟩,
        ["images/A.png".data], []⟩ "B".data).fs = ["images/A.png".data] ∧
    hasBandB (delete_band
      ⟨⟨[("B".data, ⟨[("A".data, ⟨some "images/A.png".data⟩)]⟩)]⟩,
        ["images/A.png".data], []⟩ "B".data).catalog "B".data = false := by
  decide

/-- C1 (amended): `delete_band` removes the band and with it all of its
albums from the catalog and leaves every other band untouched, but
performs no file-system operation: the asset files referenced by the
deleted band's albums are not deleted. -/
theorem delete_band_spec (st : AppState) (b : PyStr) (hwf : st.catalog.Wf) :
    (delete_band st b).fs = st.fs ∧
    hasBandB (delete_band st b).catalog b = false ∧
    (∀ a : PyStr, hasAlbumB (delete_band st b).catalog b a = false) ∧
    (∀ b2 : PyStr, b2 ≠ b →
      alLookup b2 (delete_band st b).catalog.bands = alLookup b2 st.catalog.bands) := by
  have herase : alLookup b (alErase b st.catalog.bands) = none :=
    alLookup_erase_self hwf.1 b
  refine ⟨rfl, ?_, ?_, ?_⟩
  · show (alLookup b (alErase b st.catalog.bands)).isSome = false
    rw [herase]
    rfl
  · intro a
    show (lookupAlbum ⟨alErase b st.catalog.bands⟩ b a).isSome = false
    unfold lookupAlbum
    rw [show (⟨alErase b st.catalog.bands⟩ : Catalog).bands
      = alErase b st.catalog.bands from rfl, herase]
    rfl
  · intro b2 h
    exact alLookup_erase_ne h st.catalog.bands

/-- C1 (witness): the amended deletion theorem applied to a concrete
one-band state. -/
theorem delete_band_spec_witness :
    (delete_band
      ⟨⟨[("B".data, ⟨[("A".data, ⟨some "images/A.png".data⟩)]⟩)]⟩,
        ["images/A.png".data], []⟩ "B".data).fs = ["images/A.png".data] :=
  (delete_band_spec
    ⟨⟨[("B".data, ⟨[("A".data, ⟨some "images/A.png".data⟩)]⟩)]⟩,
      ["images/A.png".data], []⟩ "B".data (by decide)).1

/-! Claim C7: validation failures cause no state change. -/

/-- C7: every validation failure is rejected before any catalog mutation
or file-system side effect: a name failing validation in `add_band` or
`add_album` (raw or stripped), a non-decodable image, and a disallowed
extension in `associate_image` all leave the application state exactly as
it was. -/
theorem validation_failures_leave_state_unchanged :
    (∀ st : AppState, ∀ input : PyStr,
      (validate_input input).1 = false → (add_band st input).1 = st) ∧
    (∀ st : AppState, ∀ band input : PyStr,
      (validate_input input).1 = false → (add_album st band input).1 = st) ∧
    (∀ st : AppState, ∀ band input : PyStr,
      (validate_input (stripL input)).1 = false → (add_album st band input).1 = st) ∧
    (∀ st : AppState, ∀ b a p : PyStr, (associate_image st b a p false).1 = st) ∧
    (∀ st : AppState, ∀ b a p : PyStr, ∀ d : Bool,
      allowedExts.contains (lowerL (extOf p)) = false →
      (associate_image st b a p d).1 = st) := by
  refine ⟨?_, ?_, ?_, ?_, ?_⟩
  · intro st input h
    simp [add_band, h]
  · intro st band input h
    unfold add_album
    cases alLookup band st.catalog.bands with
    | none => rfl
    | some bd => simp [h]
  · intro st band input h
    unfold add_album
    cases alLookup band st.catalog.bands with
    | none => rfl
    | some bd =>
      by_cases h1 : (validate_input input).1 = false
      · simp [h1]
      · simp [h1, h]
  · intro st b a p
    unfold associate_image
    cases lookupAlbum st.catalog b a with
    | none => rfl
    | some al => rfl
  · intro st b a p d h
    unfold associate_image
    cases lookupAlbum st.catalog b a with
    | none => rfl
    | some al =>
      cases d with
      | false => rfl
      | true =>
        have hmem : lowerL (extOf p) ∉ allowedExts := by
          intro hm
          rw [(contains_iff_mem allowedExts (lowerL (extOf p))).mpr hm] at h
          simp at h
        simp [hmem]

/-- C7 (witness): the no-state-change theorem applied to concrete failing
inputs: an invalid raw name, a name whose stripped form is invalid, and a
text file presented as an image. -/
theorem validation_failures_witness :
    (add_band ⟨emptyCatalog, [], []⟩ "a?".data).1 = ⟨emptyCatalog, [], []⟩ ∧
    (add_album ⟨⟨[("B".data, ⟨[]⟩)]⟩, [], []⟩ "B".data "x*".data).1
      = ⟨⟨[("B".data, ⟨[]⟩)]⟩, [], []⟩ ∧
    (associate_image ⟨⟨[("B".data, ⟨[("A".data, ⟨none⟩)]⟩)]⟩, [], []⟩
      "B".data "A".data "notes.txt".data true).1
      = ⟨⟨[("B".data, ⟨[("A".data, ⟨none⟩)]⟩)]⟩, [], []⟩ :=
  ⟨validation_failures_leave_state_unchanged.1 ⟨emptyCatalog, [], []⟩ "a?".data (by decide),
   validation_failures_leave_state_unchanged.2.1 ⟨⟨[("B".data, ⟨[]⟩)]⟩, [], []⟩
     "B".data "x*".data (by decide),
   validation_failures_leave_state_unchanged.2.2.2.2
     ⟨⟨[("B".data, ⟨[("A".data, ⟨none⟩)]⟩)]⟩, [], []⟩
     "B".data "A".data "notes.txt".data true (by decide)⟩

/-! Claim C4: destination names chosen by `associate_image`. -/

/-- Lookup of the freshly written album record after `setImage`. -/
theorem lookupAlbum_setImage_self (c : Catalog) (b a : PyStr) (img : Option PyStr)
    (bd : Band) (hb : alLookup b c.bands = some bd) :
    lookupAlbum (setImage c b a img) b a = some ⟨img⟩ := by
  unfold setImage
  rw [hb]
  unfold lookupAlbum
  rw [show (⟨alInsert b ⟨alInsert a ⟨img⟩ bd.albums⟩ c.bands⟩ : Catalog).bands
    = alInsert b ⟨alInsert a ⟨img⟩ bd.albums⟩ c.bands from rfl]
  rw [alLookup_insert_self]
  exact alLookup_insert_self a ⟨img⟩ bd.albums

/-- C4 (counterexample): associating the image file `cover.PNG` stores an
asset whose name ends in the lowercased `.png`, not the source file's
original extension `.PNG`, contradicting the claim that the destination
name is the sanitized album name with the original extension appended. -/
theorem associate_image_ext_cex :
    extOf "cover.PNG".data = ".PNG".data ∧
    (associate_image ⟨⟨[("B".data, ⟨[("Abbey Road".data, ⟨none⟩)]⟩)]⟩, [], []⟩
      "B".data "Abbey Road".data "cover.PNG".data true).1.fs
      = ["images/Abbey_Road.png".data] ∧
    "images/Abbey_Road.png".data
      ≠ "images/".data ++ sanitizeAlbum "Abbey Road".data ++ ".PNG".data := by
  decide

/-- C4 (amended): the destination file name is the sanitized album name
(forbidden characters stripped, spaces replaced by underscores) with the
source file's extension lowercased appended; when that name is taken the
first free integer suffix starting at 1 is chosen, so two calls whose
sources sanitize to the same destination name produce two distinct asset
files, the second suffixed with 1. -/
theorem associate_image_dest_spec :
    (∀ fs : List PyStr, ∀ stem ext2 : PyStr,
      fs.contains (stem ++ ext2) = false → destName fs stem ext2 = stem ++ ext2) ∧
    (∀ fs : List PyStr, ∀ stem ext2 : PyStr, ∀ n : Nat,
      fs.contains (stem ++ ext2) = true → 1 ≤ n →
      fs.contains (candName stem ext2 n) = false →
      (∀ j, 1 ≤ j → j < n → fs.contains (candName stem ext2 j) = true) →
      destName fs stem ext2 = candName stem ext2 n) ∧
    (∀ fs : List PyStr, ∀ stem ext2 : PyStr,
      fs.contains (stem ++ ext2) = false →
      fs.contains (candName stem ext2 1) = false →
      destName fs stem ext2 = stem ++ ext2 ∧
      destName (fs ++ [stem ++ ext2]) stem ext2 = candName stem ext2 1 ∧
      stem ++ ext2 ≠ candName stem ext2 1) ∧
    (∀ st : AppState, ∀ b a p : PyStr, ∀ bd : Band, ∀ al : Album,
      alLookup b st.catalog.bands = some bd → alLookup a bd.albums = some al →
      allowedExts.contains (lowerL (extOf p)) = true →
      (associate_image st b a p true).2 = none ∧
      (associate_image st b a p true).1.fs
        = st.fs ++ [destName st.fs ("images/".data ++ sanitizeAlbum a) (lowerL (extOf p))] ∧
      lookupAlbum (associate_image st b a p true).1.catalog b a
        = some ⟨some (destName st.fs ("images/".data ++ sanitizeAlbum a)
            (lowerL (extOf p)))⟩) := by
  refine ⟨?_, ?_, ?_, ?_⟩
  · intro fs stem ext2 h
    exact destName_base fs stem ext2 h
  · intro fs stem ext2 n hbase h1 hfree hbusy
    exact destName_loop fs stem ext2 n hbase h1 hfree hbusy
  · intro fs stem ext2 hbase hc1
    refine ⟨destName_base fs stem ext2 hbase, ?_, base_ne_candName stem ext2 1⟩
    have hbase2 : (fs ++ [stem ++ ext2]).contains (stem ++ ext2) = true := by
      rw [contains_iff_mem]
      exact List.mem_append_right fs (by simp)
    refine destName_loop (fs ++ [stem ++ ext2]) stem ext2 1 hbase2 le_rfl ?_ ?_
    · rcases hb : (fs ++ [stem ++ ext2]).contains (candName stem ext2 1) with _ | _
      · rfl
      · exfalso
        rcases List.mem_append.mp ((contains_iff_mem _ _).mp hb) with hm | hm
        · rw [(contains_iff_mem fs _).mpr hm] at hc1
          simp at hc1
        · simp at hm
          exact base_ne_candName stem ext2 1 hm.symm
    · intro j hj1 hj2
      omega
  · intro st b a p bd al hb ha hext
    have hsel : lookupAlbum st.catalog b a = some al := by
      unfold lookupAlbum
      rw [hb]
      exact ha
    have hres : associate_image st b a p true =
        (save_data { st with
          fs := st.fs ++ [destName st.fs ("images/".data ++ sanitizeAlbum a)
            (lowerL (extOf p))],
          catalog := setImage st.catalog b a (some (destName st.fs
            ("images/".data ++ sanitizeAlbum a) (lowerL (extOf p)))) }, none) := by
      unfold associate_image
      rw [hsel]
      simp [(contains_iff_mem allowedExts (lowerL (extOf p))).mp hext]
    rw [hres]
    exact ⟨rfl, rfl, lookupAlbum_setImage_self st.catalog b a _ bd hb⟩

/-- C4 (witness): the destination-name theorem applied to concrete file
lists: a fresh name, the first suffix on collision, the least free suffix
2 when suffix 1 is also taken, and a concrete successful association. -/
theorem associate_image_dest_spec_witness :
    destName [] "images/x".data ".png".data = "images/x.png".data ∧
    destName ["images/x.png".data] "images/x".data ".png".data = "images/x_1.png".data ∧
    destName ["images/x.png".data, "images/x_1.png".data] "images/x".data ".png".data
      = "images/x_2.png".data ∧
    (associate_image ⟨⟨[("B".data, ⟨[("A".data, ⟨none⟩)]⟩)]⟩, [], []⟩
      "B".data "A".data "c.jpg".data true).1.fs = ["images/A.jpg".data] := by
  refine ⟨associate_image_dest_spec.1 [] "images/x".data ".png".data (by decide),
    ?_, ?_, ?_⟩
  · have h := (associate_image_dest_spec.2.2.1 [] "images/x".data ".png".data
      (by decide) (by decide)).2.1
    have h2 : ([] ++ ["images/x".data ++ ".png".data] : List PyStr)
      = ["images/x.png".data] := by decide
    have h3 : candName "images/x".data ".png".data 1 = "images/x_1.png".data := by decide
    rw [h2, h3] at h
    exact h
  · refine associate_image_dest_spec.2.1 ["images/x.png".data, "images/x_1.png".data]
      "images/x".data ".png".data 2 (by decide) (by decide) (by decide) ?_
    intro j h1 h2
    have hj : j = 1 := by omega
    subst hj
    decide
  · have h := (associate_image_dest_spec.2.2.2
      ⟨⟨[("B".data, ⟨[("A".data, ⟨none⟩)]⟩)]⟩, [], []⟩
      "B".data "A".data "c.jpg".data ⟨[("A".data, ⟨none⟩)]⟩ ⟨none⟩
      (by decide) (by decide) (by decide)).2.1
    rw [h]
    decide

/-! Claim C8: add album, associate an image, remove the image. -/

/-- Characterization of `remove_image` when the selected album exists and
holds an image reference naming an existing file: the file is deleted,
the reference is cleared and the catalog saved. -/
theorem remove_image_eq_some (st : AppState) (b a : PyStr) (bd : Band) (rel : PyStr)
    (hb : alLookup b st.catalog.bands = some bd)
    (ha : alLookup a bd.albums = some (Album.mk (some rel)))
    (hcont : st.fs.contains rel = true) :
    remove_image st b a
      = some (save_data
        ({ st with fs := st.fs.erase rel, catalog := setImage st.catalog b a none })) := by
  unfold remove_image
  simp only [hb, ha, hcont, if_true]

/-- C8: for a valid album name new to an existing band, running
`add_album`, then `associate_image` on a decodable image with an allowed
extension, then `remove_image`, leaves the album present with an absent
image reference, the copied asset file no longer exists, and the asset
directory is back to its initial contents. -/
theorem add_associate_remove_spec
    (st : AppState) (b input p : PyStr) (bd : Band)
    (hb : alLookup b st.catalog.bands = some bd)
    (hv1 : (validate_input input).1 = true)
    (hv2 : (validate_input (stripL input)).1 = true)
    (hnew : alLookup (stripL input) bd.albums = none)
    (hext : allowedExts.contains (lowerL (extOf p)) = true) :
    ∃ st3 : AppState,
      remove_image
        (associate_image (add_album st b input).1 b (stripL input) p true).1
        b (stripL input) = some st3 ∧
      lookupAlbum st3.catalog b (stripL input) = some ⟨none⟩ ∧
      destName st.fs ("images/".data ++ sanitizeAlbum (stripL input))
        (lowerL (extOf p)) ∉ st3.fs ∧
      st3.fs = st.fs := by
  set a := stripL input with ha_def
  set c1 : Catalog :=
    ⟨alInsert b ⟨alInsert a ⟨none⟩ bd.albums⟩ st.catalog.bands⟩ with hc1_def
  set dest := destName st.fs ("images/".data ++ sanitizeAlbum a) (lowerL (extOf p))
    with hdest_def
  have h1 : (add_album st b input).1 = ⟨c1, st.fs, st.saves ++ [c1]⟩ := by
    unfold add_album
    rw [hb]
    simp only [hv1, hv2, hnew]
    simp [save_data]
  have hb1 : alLookup b c1.bands = some ⟨alInsert a ⟨none⟩ bd.albums⟩ :=
    alLookup_insert_self b _ st.catalog.bands
  have hsel1 : lookupAlbum c1 b a = some ⟨none⟩ := by
    unfold lookupAlbum
    rw [hb1]
    exact alLookup_insert_self a ⟨none⟩ bd.albums
  set c2 := setImage c1 b a (some dest) with hc2_def
  have h2 : (associate_image (⟨c1, st.fs, st.saves ++ [c1]⟩ : AppState) b a p true).1
      = ⟨c2, st.fs ++ [dest], (st.saves ++ [c1]) ++ [c2]⟩ := by
    unfold associate_image
    rw [show lookupAlbum (⟨c1, st.fs, st.saves ++ [c1]⟩ : AppState).catalog b a
      = some ⟨none⟩ from hsel1]
    simp [(contains_iff_mem allowedExts (lowerL (extOf p))).mp hext, save_data]
    exact ⟨rfl, rfl, rfl⟩
  have hc2 : c2 = ⟨alInsert b ⟨alInsert a ⟨some dest⟩
      (alInsert a ⟨none⟩ bd.albums)⟩ c1.bands⟩ := by
    rw [hc2_def]
    unfold setImage
    rw [hb1]
  have hb2 : alLookup b c2.bands
      = some ⟨alInsert a ⟨some dest⟩ (alInsert a ⟨none⟩ bd.albums)⟩ := by
    rw [hc2]
    exact alLookup_insert_self b _ c1.bands
  have ha2 : alLookup a (Band.mk (alInsert a (Album.mk (some dest))
      (alInsert a (Album.mk none) bd.albums))).albums
      = some (Album.mk (some dest)) :=
    alLookup_insert_self a (Album.mk (some dest)) (alInsert a (Album.mk none) bd.albums)
  have hnotmem : dest ∉ st.fs := by
    intro hm
    have hdc := destName_not_mem st.fs ("images/".data ++ sanitizeAlbum a)
      (lowerL (extOf p))
    rw [← hdest_def] at hdc
    rw [(contains_iff_mem st.fs dest).mpr hm] at hdc
    simp at hdc
  have hcont : (st.fs ++ [dest]).contains dest = true := by
    rw [contains_iff_mem]
    exact List.mem_append_right st.fs (by simp)
  have herase : (st.fs ++ [dest]).erase dest = st.fs := by
    rw [List.erase_append_right [dest] hnotmem]
    simp
  set c3 := setImage c2 b a none with hc3_def
  have h3 := remove_image_eq_some
    (AppState.mk c2 (st.fs ++ [dest]) ((st.saves ++ [c1]) ++ [c2])) b a
    (Band.mk (alInsert a (Album.mk (some dest)) (alInsert a (Album.mk none) bd.albums)))
    dest hb2 ha2 hcont
  rw [show ((AppState.mk c2 (st.fs ++ [dest])
    ((st.saves ++ [c1]) ++ [c2])).fs.erase dest) = (st.fs ++ [dest]).erase dest
    from rfl, herase] at h3
  refine Exists.intro
    (AppState.mk c3 st.fs (((st.saves ++ [c1]) ++ [c2]) ++ [c3]))
    ⟨?_, ?_, hnotmem, rfl⟩
  · rw [h1, h2, h3]
    rfl
  · exact lookupAlbum_setImage_self c2 b a none _ hb2

/-- C8 (witness): the add-associate-remove theorem applied to a concrete
band `B`, album `A` and image `c.jpg`. -/
theorem add_associate_remove_spec_witness :
    ∃ st3 : AppState,
      remove_image
        (associate_image
          (add_album ⟨⟨[("B".data, ⟨[]⟩)]⟩, [], []⟩ "B".data "A".data).1
          "B".data (stripL "A".data) "c.jpg".data true).1
        "B".data (stripL "A".data) = some st3 ∧
      lookupAlbum st3.catalog "B".data (stripL "A".data) = some ⟨none⟩ ∧
      destName ([] : List PyStr) ("images/".data ++ sanitizeAlbum (stripL "A".data))
        (lowerL (extOf "c.jpg".data)) ∉ st3.fs ∧
      st3.fs = ([] : List PyStr) :=
  add_associate_remove_spec ⟨⟨[("B".data, ⟨[]⟩)]⟩, [], []⟩ "B".data "A".data
    "c.jpg".data ⟨[]⟩ (by decide) (by decide) (by decide) (by decide) (by decide)

/-! Import-line case analysis. -/

/-- Catalog produced by a valid, creating import line: the band is
created when absent, then the album is inserted with an absent image. -/
def addPair (c : Catalog) (b a : PyStr) : Catalog :=
  let c1 := if (alLookup b c.bands).isSome then c else ⟨alInsert b ⟨[]⟩ c.bands⟩
  match alLookup b c1.bands with
  | none => c1
  | some bd => ⟨alInsert b ⟨alInsert a ⟨none⟩ bd.albums⟩ c1.bands⟩

theorem importLine_empty_line (c : Catalog) (n : Nat) (l : PyStr)
    (h : (stripL l).isEmpty = true) : importLine (c, n) l = (c, n) := by
  unfold importLine
  simp [h]

theorem importLine_not_two_parts (c : Catalog) (n : Nat) (l : PyStr)
    (h : ∀ b0 a0 : PyStr, splitSep (stripL l) ≠ [b0, a0]) :
    importLine (c, n) l = (c, n) := by
  unfold importLine
  by_cases hemp : (stripL l).isEmpty = true
  · simp [hemp]
  · rw [Bool.not_eq_true] at hemp
    simp only [hemp, Bool.false_eq_true, if_false]

theorem importLine_empty_part (c : Catalog) (n : Nat) (l b0 a0 : PyStr)
    (hs : splitSep (stripL l) = [b0, a0])
    (h : (stripL b0).isEmpty = true ∨ (stripL a0).isEmpty = true) :
    importLine (c, n) l = (c, n) := by
  unfold importLine
  by_cases hemp : (stripL l).isEmpty = true
  · simp [hemp]
  · rw [Bool.not_eq_true] at hemp
    simp only [hemp, Bool.false_eq_true, if_false]
    split
    · rename_i b1 a1 heq
      rw [hs] at heq
      simp only [List.cons.injEq, and_true] at heq
      obtain ⟨h1, h2⟩ := heq
      subst h1
      subst h2
      rcases h with h4 | h4 <;> simp [h4]
    · rfl

theorem importLine_present (c : Catalog) (n : Nat) (l b0 a0 : PyStr)
    (hs : splitSep (stripL l) = [b0, a0])
    (hb : (stripL b0).isEmpty = false) (ha : (stripL a0).isEmpty = false)
    (hhas : hasAlbumB c (stripL b0) (stripL a0) = true) :
    importLine (c, n) l = (c, n) := by
  have hbd : ∃ bd, alLookup (stripL b0) c.bands = some bd ∧
      (alLookup (stripL a0) bd.albums).isSome = true := by
    unfold hasAlbumB lookupAlbum at hhas
    cases hlb : alLookup (stripL b0) c.bands with
    | none => rw [hlb] at hhas; simp at hhas
    | some bd => rw [hlb] at hhas; exact ⟨bd, rfl, hhas⟩
  rcases hbd with ⟨bd, hlb, hla⟩
  have hemp : (stripL l).isEmpty = false := by
    cases hval : stripL l with
    | nil => rw [hval] at hs; simp [splitSep] at hs
    | cons x t => rfl
  unfold importLine
  simp only [hemp, Bool.false_eq_true, if_false, hs]
  simp only [hb, ha, Bool.or_self, Bool.false_eq_true, if_false]
  simp [hlb, hla]

theorem importLine_creates (c : Catalog) (n : Nat) (l b0 a0 : PyStr)
    (hs : splitSep (stripL l) = [b0, a0])
    (hb : (stripL b0).isEmpty = false) (ha : (stripL a0).isEmpty = false)
    (hhas : hasAlbumB c (stripL b0) (stripL a0) = false) :
    importLine (c, n) l = (addPair c (stripL b0) (stripL a0), n + 1) := by
  have hemp : (stripL l).isEmpty = false := by
    cases hval : stripL l with
    | nil => rw [hval] at hs; simp [splitSep] at hs
    | cons x t => rfl
  unfold importLine addPair
  simp only [hemp, Bool.false_eq_true, if_false, hs]
  simp only [hb, ha, Bool.or_self, Bool.false_eq_true, if_false]
  by_cases hband : (alLookup (stripL b0) c.bands).isSome = true
  · rcases Option.isSome_iff_exists.mp hband with ⟨bd, hbd⟩
    have hla : (alLookup (stripL a0) bd.albums).isSome = false := by
      unfold hasAlbumB lookupAlbum at hhas
      rw [hbd] at hhas
      exact hhas
    simp [hbd, hla]
  · rw [Bool.not_eq_true] at hband
    have hb1 : alLookup (stripL b0)
        ((⟨alInsert (stripL b0) ⟨[]⟩ c.bands⟩ : Catalog)).bands
        = some (⟨[]⟩ : Band) := alLookup_insert_self (stripL b0) ⟨[]⟩ c.bands
    simp only [hband, Bool.false_eq_true, if_false, hb1]
    simp [alLookup]

/-! Properties of `addPair` and totals. -/

theorem eq_none_of_isSome_false {α : Type} {o : Option α} (h : o.isSome = false) :
    o = none := by
  cases o with
  | none => rfl
  | some v => simp at h

theorem addPair_hasBand (c : Catalog) (b a b2 : PyStr) :
    hasBandB (addPair c b a) b2 = true ↔ (hasBandB c b2 = true ∨ b2 = b) := by
  unfold addPair hasBandB
  by_cases hband : (alLookup b c.bands).isSome = true
  · rcases Option.isSome_iff_exists.mp hband with ⟨bd, hbd⟩
    by_cases h2 : b2 = b
    · subst h2
      simp [hbd, alLookup_insert_self]
    · simp [hbd, alLookup_insert_ne h2, h2]
  · have hnone : alLookup b c.bands = none :=
      eq_none_of_isSome_false (by rwa [Bool.not_eq_true] at hband)
    by_cases h2 : b2 = b
    · subst h2
      simp [hnone, alLookup_insert_self]
    · simp [hnone, alLookup_insert_self, alLookup_insert_ne h2, h2]

theorem addPair_lookup_self (c : Catalog) (b a : PyStr) :
    lookupAlbum (addPair c b a) b a = some ⟨none⟩ := by
  unfold addPair lookupAlbum
  by_cases hband : (alLookup b c.bands).isSome = true
  · rcases Option.isSome_iff_exists.mp hband with ⟨bd, hbd⟩
    simp [hbd, alLookup_insert_self]
  · have hnone : alLookup b c.bands = none :=
      eq_none_of_isSome_false (by rwa [Bool.not_eq_true] at hband)
    simp [hnone, alLookup_insert_self]

theorem addPair_lookup_ne (c : Catalog) (b a b2 a2 : PyStr)
    (hne : ¬(b2 = b ∧ a2 = a)) :
    lookupAlbum (addPair c b a) b2 a2 = lookupAlbum c b2 a2 := by
  unfold addPair lookupAlbum
  by_cases h2 : b2 = b
  · subst h2
    have ha2 : a2 ≠ a := fun hh => hne ⟨rfl, hh⟩
    by_cases hband : (alLookup b2 c.bands).isSome = true
    · rcases Option.isSome_iff_exists.mp hband with ⟨bd, hbd⟩
      simp [hbd, alLookup_insert_self, alLookup_insert_ne ha2]
    · have hnone : alLookup b2 c.bands = none :=
        eq_none_of_isSome_false (by rwa [Bool.not_eq_true] at hband)
      simp [hnone, alLookup_insert_self, alLookup_insert_ne ha2, alLookup,
        Ne.symm ha2]
  · by_cases hband : (alLookup b c.bands).isSome = true
    · rcases Option.isSome_iff_exists.mp hband with ⟨bd, hbd⟩
      simp [hbd, alLookup_insert_ne h2]
    · have hnone : alLookup b c.bands = none :=
        eq_none_of_isSome_false (by rwa [Bool.not_eq_true] at hband)
      simp [hnone, alLookup_insert_self, alLookup_insert_ne h2]

theorem sumB_insert_none (l : List (PyStr × Band)) (b : PyStr) (bd : Band)
    (h : alLookup b l = none) :
    ((alInsert b bd l).map (fun p => p.2.albums.length)).sum
      = (l.map (fun p => p.2.albums.length)).sum + bd.albums.length := by
  induction l with
  | nil => simp [alInsert]
  | cons p rest ih =>
    by_cases hp : p.1 = b
    · simp [alLookup, hp] at h
    · simp only [alLookup, if_neg hp] at h
      simp only [alInsert, if_neg hp, List.map_cons, List.sum_cons, ih h]
      omega

theorem sumB_insert_some (l : List (PyStr × Band)) (b : PyStr) (bd bd2 : Band)
    (h : alLookup b l = some bd) :
    ((alInsert b bd2 l).map (fun p => p.2.albums.length)).sum + bd.albums.length
      = (l.map (fun p => p.2.albums.length)).sum + bd2.albums.length := by
  induction l with
  | nil => simp [alLookup] at h
  | cons p rest ih =>
    by_cases hp : p.1 = b
    · simp only [alLookup, if_pos hp, Option.some.injEq] at h
      subst h
      simp [alInsert, if_pos hp]
      omega
    · simp only [alLookup, if_neg hp] at h
      simp only [alInsert, if_neg hp, List.map_cons, List.sum_cons]
      have := ih h
      omega

theorem addPair_total (c : Catalog) (b a : PyStr)
    (hnew : hasAlbumB c b a = false) :
    totalAlbums (addPair c b a) = totalAlbums c + 1 := by
  unfold addPair totalAlbums
  by_cases hband : (alLookup b c.bands).isSome = true
  · rcases Option.isSome_iff_exists.mp hband with ⟨bd, hbd⟩
    have hla : alLookup a bd.albums = none := by
      unfold hasAlbumB lookupAlbum at hnew
      simp only [hbd] at hnew
      exact eq_none_of_isSome_false hnew
    simp only [hbd, Option.isSome_some, if_true]
    have hsum := sumB_insert_some c.bands b bd
      ⟨alInsert a ⟨none⟩ bd.albums⟩ hbd
    have hlen : ((⟨alInsert a ⟨none⟩ bd.albums⟩ : Band)).albums.length
        = bd.albums.length + 1 := alInsert_length_new hla ⟨none⟩
    omega
  · have hnone : alLookup b c.bands = none :=
      eq_none_of_isSome_false (by rwa [Bool.not_eq_true] at hband)
    simp only [hnone, Option.isSome_none, Bool.false_eq_true, if_false,
      alLookup_insert_self]
    have hs1 := sumB_insert_none c.bands b ⟨[]⟩ hnone
    have hs2 := sumB_insert_some (alInsert b ⟨[]⟩ c.bands) b ⟨[]⟩
      ⟨alInsert a ⟨none⟩ ([] : List (PyStr × Album))⟩
      (alLookup_insert_self b ⟨[]⟩ c.bands)
    have e1 : ((⟨[]⟩ : Band)).albums.length = 0 := rfl
    have e2 : ((⟨alInsert a ⟨none⟩ ([] : List (PyStr × Album))⟩ : Band)).albums.length
        = 1 := rfl
    omega

theorem importLine_total (c : Catalog) (n : Nat) (l : PyStr) :
    totalAlbums (importLine (c, n) l).1 + n
      = totalAlbums c + (importLine (c, n) l).2 := by
  rcases hsp : splitSep (stripL l) with _ | ⟨x, _ | ⟨y, _ | ⟨z, rest⟩⟩⟩
  · exact absurd hsp (splitSep_ne_nil (stripL l))
  · rw [importLine_not_two_parts c n l
      (by intro b0 a0 hEq; rw [hsp] at hEq; simp at hEq)]
  · by_cases hxy : (stripL x).isEmpty = true ∨ (stripL y).isEmpty = true
    · rw [importLine_empty_part c n l x y hsp hxy]
    · push_neg at hxy
      obtain ⟨hx2, hy2⟩ := hxy
      simp only [ne_eq, Bool.not_eq_true] at hx2 hy2
      by_cases hhas : hasAlbumB c (stripL x) (stripL y) = true
      · rw [importLine_present c n l x y hsp hx2 hy2 hhas]
      · rw [Bool.not_eq_true] at hhas
        rw [importLine_creates c n l x y hsp hx2 hy2 hhas]
        have ht := addPair_total c (stripL x) (stripL y) hhas
        show totalAlbums (addPair c (stripL x) (stripL y)) + n
          = totalAlbums c + (n + 1)
        omega
  · rw [importLine_not_two_parts c n l
      (by intro b0 a0 hEq; rw [hsp] at hEq; simp at hEq)]

theorem foldl_importLine_total (lines : List PyStr) : ∀ c : Catalog, ∀ n : Nat,
    totalAlbums ((lines.foldl importLine (c, n)).1) + n
      = totalAlbums c + (lines.foldl importLine (c, n)).2 := by
  induction lines with
  | nil => intro c n; simp
  | cons l rest ih =>
    intro c n
    have h1 := importLine_total c n l
    have h2 := ih (importLine (c, n) l).1 (importLine (c, n) l).2
    rw [List.foldl_cons,
      show importLine (c, n) l = ((importLine (c, n) l).1, (importLine (c, n) l).2)
        from rfl]
    omega

/-! Ordering of names and the export listing. -/

theorem strLe_total : ∀ u v : PyStr, (strLe u v || strLe v u) = true := by
  intro u
  induction u with
  | nil => intro v; simp [strLe]
  | cons c u ih =>
    intro v
    cases v with
    | nil => simp [strLe]
    | cons d v2 =>
      by_cases h : c = d
      · subst h
        simp only [strLe, if_pos rfl]
        exact ih v2
      · have h2 : ¬(d = c) := fun hh => h hh.symm
        simp only [strLe, if_neg h, if_neg h2]
        rcases lt_or_gt_of_ne h with hlt | hlt
        · simp [hlt]
        · simp [hlt]

theorem strLe_trans : ∀ u v w : PyStr,
    strLe u v = true → strLe v w = true → strLe u w = true := by
  intro u
  induction u with
  | nil => intro v w h1 h2; simp [strLe]
  | cons c u ih =>
    intro v w h1 h2
    cases v with
    | nil => simp [strLe] at h1
    | cons d v2 =>
      cases w with
      | nil => simp [strLe] at h2
      | cons e w2 =>
        by_cases hcd : c = d
        · subst hcd
          simp only [strLe, if_pos rfl] at h1
          by_cases hde : c = e
          · subst hde
            simp only [strLe, if_pos rfl] at h2 ⊢
            exact ih v2 w2 h1 h2
          · simp only [strLe, if_neg hde] at h2 ⊢
            exact h2
        · simp only [strLe, if_neg hcd] at h1
          have hlt1 : c < d := by simpa using h1
          by_cases hde : d = e
          · subst hde
            simp only [strLe, if_neg hcd]
            simpa using hlt1
          · have hlt2 : d < e := by
              simp only [strLe, if_neg hde] at h2
              simpa using h2
            have hce : c < e := lt_trans hlt1 hlt2
            have hne : ¬(c = e) := ne_of_lt hce
            simp only [strLe, if_neg hne]
            simpa using hce

theorem insertSorted_perm (x : PyStr) (l : List PyStr) :
    (insertSorted x l).Perm (x :: l) := by
  induction l with
  | nil => exact List.Perm.refl _
  | cons y rest ih =>
    by_cases h : strLe x y = true
    · simp only [insertSorted, h, if_true]
      exact List.Perm.refl _
    · simp only [insertSorted, h, Bool.false_eq_true, if_false]
      exact (ih.cons y).trans (List.Perm.swap x y rest)

theorem sortStr_perm (l : List PyStr) : (sortStr l).Perm l := by
  induction l with
  | nil => exact List.Perm.refl _
  | cons x rest ih =>
    show (insertSorted x (sortStr rest)).Perm (x :: rest)
    exact (insertSorted_perm x (sortStr rest)).trans (ih.cons x)

theorem insertSorted_pairwise (x : PyStr) (l : List PyStr)
    (h : List.Pairwise (fun u v => strLe u v = true) l) :
    List.Pairwise (fun u v => strLe u v = true) (insertSorted x l) := by
  induction l with
  | nil => simp [insertSorted]
  | cons y rest ih =>
    rcases List.pairwise_cons.mp h with ⟨hy, hrest⟩
    by_cases hxy : strLe x y = true
    · simp only [insertSorted, hxy, if_true]
      refine List.pairwise_cons.mpr ⟨?_, h⟩
      intro z hz
      rcases List.mem_cons.mp hz with h1 | h1
      · rw [h1]
        exact hxy
      · exact strLe_trans x y z hxy (hy z h1)
    · simp only [insertSorted, hxy, Bool.false_eq_true, if_false]
      refine List.pairwise_cons.mpr ⟨?_, ih hrest⟩
      intro z hz
      rcases List.mem_cons.mp ((insertSorted_perm x rest).mem_iff.mp hz) with h1 | h1
      · rw [h1]
        have := strLe_total x y
        rw [show strLe x y = false from by
          cases hb : strLe x y with
          | false => rfl
          | true => exact absurd hb hxy] at this
        simpa using this
      · exact hy z h1

theorem sortStr_pairwise (l : List PyStr) :
    List.Pairwise (fun u v => strLe u v = true) (sortStr l) := by
  induction l with
  | nil => simp [sortStr]
  | cons x rest ih =>
    show List.Pairwise (fun u v => strLe u v = true) (insertSorted x (sortStr rest))
    exact insertSorted_pairwise x (sortStr rest) ih

theorem mem_sortStr (l : List PyStr) (a : PyStr) : a ∈ sortStr l ↔ a ∈ l :=
  (sortStr_perm l).mem_iff

/-- Pairs listed by the export, in order. -/
def exportPairs (c : Catalog) : List (PyStr × PyStr) :=
  (sortStr (alKeys c.bands)).flatMap (fun b =>
    match alLookup b c.bands with
    | none => []
    | some bd => (sortStr (alKeys bd.albums)).map (fun a => (b, a)))

theorem export_lines_eq (c : Catalog) :
    export_lines c = (exportPairs c).map (fun p => lineFor p.1 p.2) := by
  unfold export_lines exportPairs
  rw [List.map_flatMap]
  have hfun : (fun b => match alLookup b c.bands with
      | none => ([] : List PyStr)
      | some bd => (sortStr (alKeys bd.albums)).map (fun a => lineFor b a))
    = (fun b => List.map (fun p : PyStr × PyStr => lineFor p.1 p.2)
        (match alLookup b c.bands with
        | none => ([] : List (PyStr × PyStr))
        | some bd => (sortStr (alKeys bd.albums)).map (fun a => (b, a)))) := by
    funext b
    cases hlb : alLookup b c.bands with
    | none => rfl
    | some bd =>
      rw [List.map_map]
      rfl
  rw [hfun]

theorem mem_exportPairs (c : Catalog) (b a : PyStr) :
    (b, a) ∈ exportPairs c ↔ hasAlbumB c b a = true := by
  unfold exportPairs
  rw [List.mem_flatMap]
  constructor
  · rintro ⟨b2, hb2, hmem⟩
    cases hlb : alLookup b2 c.bands with
    | none => rw [hlb] at hmem; simp at hmem
    | some bd =>
      rw [hlb] at hmem
      rcases List.mem_map.mp hmem with ⟨a2, ha2, heq⟩
      have hb2b : b2 = b := congrArg Prod.fst heq
      have ha2a : a2 = a := congrArg Prod.snd heq
      have hres : hasAlbumB c b2 a2 = true := by
        unfold hasAlbumB lookupAlbum
        simp only [hlb]
        exact (alLookup_isSome_iff a2 bd.albums).mpr (by rwa [mem_sortStr] at ha2)
      rw [← hb2b, ← ha2a]
      exact hres
  · intro hhas
    unfold hasAlbumB lookupAlbum at hhas
    cases hlb : alLookup b c.bands with
    | none => rw [hlb] at hhas; simp at hhas
    | some bd =>
      rw [hlb] at hhas
      refine ⟨b, ?_, ?_⟩
      · rw [mem_sortStr]
        exact (alLookup_isSome_iff b c.bands).mp (by rw [hlb]; rfl)
      · rw [hlb]
        refine List.mem_map.mpr ⟨a, ?_, rfl⟩
        rw [mem_sortStr]
        exact (alLookup_isSome_iff a bd.albums).mp hhas

theorem nodup_flatMap_fst (bs : List PyStr) (f : PyStr → List (PyStr × PyStr))
    (hf1 : ∀ b : PyStr, ∀ p : PyStr × PyStr, p ∈ f b → p.1 = b)
    (hf2 : ∀ b : PyStr, (f b).Nodup)
    (hnd : bs.Nodup) : (bs.flatMap f).Nodup := by
  induction bs with
  | nil => simp
  | cons b rest ih =>
    rw [List.flatMap_cons, List.nodup_append]
    rcases List.nodup_cons.mp hnd with ⟨hb, hrest⟩
    refine ⟨hf2 b, ih hrest, ?_⟩
    intro p hp1 hp2
    rcases List.mem_flatMap.mp hp2 with ⟨b2, hb2, hpb2⟩
    have h1 := hf1 b p hp1
    have h2 := hf1 b2 p hpb2
    rw [h1] at h2
    rw [h2] at hb
    exact hb hb2

theorem nodup_exportPairs (c : Catalog) (hwf : c.Wf) : (exportPairs c).Nodup := by
  unfold exportPairs
  refine nodup_flatMap_fst _ _ ?_ ?_
    (((sortStr_perm _).nodup_iff).mpr hwf.1)
  · intro b p hp
    cases hlb : alLookup b c.bands with
    | none =>
      rw [hlb] at hp
      simp at hp
    | some bd =>
      rw [hlb] at hp
      rcases List.mem_map.mp hp with ⟨a2, _, heq⟩
      rw [← heq]
  · intro b
    cases hlb : alLookup b c.bands with
    | none => simp
    | some bd =>
      exact List.Nodup.map (fun x y hxy => congrArg Prod.snd hxy)
        (((sortStr_perm _).nodup_iff).mpr
          (hwf.2 (b, bd) (alLookup_eq_some_mem hlb)))

theorem sum_over_keys (l : List (PyStr × Band)) (g : Band → Nat)
    (hnd : (alKeys l).Nodup) :
    ((alKeys l).map (fun b => match alLookup b l with
      | none => 0
      | some bd => g bd)).sum = (l.map (fun p => g p.2)).sum := by
  induction l with
  | nil => rfl
  | cons p rest ih =>
    simp only [alKeys, List.map_cons, List.sum_cons] at hnd ⊢
    rcases List.nodup_cons.mp hnd with ⟨hp, hrest⟩
    have hhead : alLookup p.1 (p :: rest) = some p.2 := by
      show (if p.1 = p.1 then some p.2 else alLookup p.1 rest) = some p.2
      simp
    rw [hhead]
    have htail : (List.map Prod.fst rest).map (fun b =>
        match alLookup b (p :: rest) with
        | none => 0
        | some bd => g bd)
      = (List.map Prod.fst rest).map (fun b =>
        match alLookup b rest with
        | none => 0
        | some bd => g bd) := by
      refine List.map_congr_left ?_
      intro b hb
      have hne : p.1 ≠ b := by
        intro hh
        rw [hh] at hp
        exact hp hb
      show (match (if p.1 = b then some p.2 else alLookup b rest) with
        | none => 0
        | some bd => g bd) = _
      rw [if_neg hne]
    rw [htail]
    have ih2 := ih hrest
    simp only [alKeys] at ih2
    rw [ih2]

theorem length_exportPairs (c : Catalog) (hwf : c.Wf) :
    (exportPairs c).length = totalAlbums c := by
  unfold exportPairs
  rw [List.length_flatMap]
  have hstep : List.map (List.length ∘ (fun b =>
      match alLookup b c.bands with
      | none => ([] : List (PyStr × PyStr))
      | some bd => (sortStr (alKeys bd.albums)).map (fun a => (b, a))))
      (sortStr (alKeys c.bands))
    = List.map (fun b => match alLookup b c.bands with
      | none => 0
      | some bd => bd.albums.length) (sortStr (alKeys c.bands)) := by
    refine List.map_congr_left ?_
    intro b hb
    show (match alLookup b c.bands with
      | none => ([] : List (PyStr × PyStr))
      | some bd => (sortStr (alKeys bd.albums)).map (fun a => (b, a))).length = _
    cases hlb : alLookup b c.bands with
    | none => rfl
    | some bd =>
      show ((sortStr (alKeys bd.albums)).map (fun a => (b, a))).length = bd.albums.length
      rw [List.length_map]
      rw [(sortStr_perm (alKeys bd.albums)).length_eq]
      unfold alKeys
      rw [List.length_map]
  rw [hstep]
  have hperm : (List.map (fun b => match alLookup b c.bands with
      | none => 0
      | some bd => bd.albums.length) (sortStr (alKeys c.bands))).Perm
      (List.map (fun b => match alLookup b c.bands with
      | none => 0
      | some bd => bd.albums.length) (alKeys c.bands)) :=
    (sortStr_perm _).map _
  rw [hperm.sum_eq]
  exact sum_over_keys c.bands (fun bd => bd.albums.length) hwf.1

/-! Claim C9: the export format. -/

/-- C9: the exported text is exactly the export lines joined by a single
newline (so no extra trailing newline); there is one line per (band,
album) pair — the number of lines equals the total album count and a
string is a line exactly when it is `band - album` for a pair of the
catalog; the band listing is sorted lexicographically, as is the album
listing of every band. -/
theorem export_collection_spec (c : Catalog) (hwf : c.Wf) :
    export_collection c = joinNl (export_lines c) ∧
    (export_lines c).length = totalAlbums c ∧
    (∀ l2 : PyStr, l2 ∈ export_lines c ↔
      ∃ b a : PyStr, l2 = lineFor b a ∧ hasAlbumB c b a = true) ∧
    List.Pairwise (fun u v => strLe u v = true) (sortStr (alKeys c.bands)) ∧
    (∀ p ∈ c.bands, List.Pairwise (fun u v => strLe u v = true)
      (sortStr (alKeys p.2.albums))) := by
  refine ⟨rfl, ?_, ?_, ?_, ?_⟩
  · rw [export_lines_eq, List.length_map]
    exact length_exportPairs c hwf
  · intro l2
    rw [export_lines_eq]
    constructor
    · intro hl2
      rcases List.mem_map.mp hl2 with ⟨p, hp, heq⟩
      exact ⟨p.1, p.2, heq.symm, (mem_exportPairs c p.1 p.2).mp hp⟩
    · rintro ⟨b, a, heq, hhas⟩
      exact List.mem_map.mpr ⟨(b, a), (mem_exportPairs c b a).mpr hhas, heq.symm⟩
  · exact sortStr_pairwise (alKeys c.bands)
  · intro p hp
    exact sortStr_pairwise (alKeys p.2.albums)

/-- C9 (witness): the export theorem applied to a concrete two-band
catalog: the number of export lines equals its total album count. -/
theorem export_collection_spec_witness :
    (export_lines (⟨[("B".data, ⟨[("A2".data, ⟨none⟩), ("A1".data, ⟨none⟩)]⟩),
        ("A".data, ⟨[("Z".data, ⟨none⟩)]⟩)]⟩ : Catalog)).length
      = totalAlbums (⟨[("B".data, ⟨[("A2".data, ⟨none⟩), ("A1".data, ⟨none⟩)]⟩),
        ("A".data, ⟨[("Z".data, ⟨none⟩)]⟩)]⟩ : Catalog) :=
  (export_collection_spec _ (by decide)).2.1

/-! Round-trip machinery: lines built from well-behaved names. -/

/-- A name that survives the export/import line format: non-empty,
strip-invariant, newline-free, and free of the separator `" - "` even
when a space is appended (so it also does not end in `" -"`). -/
def goodN (x : PyStr) : Prop :=
  x ≠ [] ∧ stripL x = x ∧ '\n' ∉ x ∧ sepFree (x ++ [' ']) = true

instance (x : PyStr) : Decidable (goodN x) := by
  unfold goodN
  infer_instance

theorem bool_eq_of_iff {x y : Bool} (h : x = true ↔ y = true) : x = y := by
  cases x <;> cases y <;> simp_all

theorem hasBand_of_hasAlbum (c : Catalog) (b a : PyStr)
    (h : hasAlbumB c b a = true) : hasBandB c b = true := by
  unfold hasAlbumB lookupAlbum at h
  unfold hasBandB
  cases hlb : alLookup b c.bands with
  | none => rw [hlb] at h; simp at h
  | some bd => rfl

theorem lineFor_nl_free (b a : PyStr) (hb : '\n' ∉ b) (ha : '\n' ∉ a) :
    '\n' ∉ lineFor b a := by
  unfold lineFor
  intro hmem
  rcases List.mem_append.mp hmem with h1 | h1
  · exact hb h1
  · rcases h1 with _ | ⟨_, (_ | ⟨_, (_ | ⟨_, h2⟩)⟩)⟩
    exact ha h2

theorem lineFor_strip (b a : PyStr) (hgb : goodN b) (hga : goodN a) :
    stripL (lineFor b a) = lineFor b a := by
  obtain ⟨hbne, hbs, -, -⟩ := hgb
  obtain ⟨hane, has2, -, -⟩ := hga
  have hhb := stripL_eq_self_elim b hbs
  have hha := stripL_eq_self_elim a has2
  refine stripL_eq_self_intro _ ?_ ?_
  · exact headNotSpace_append b _ hbne hhb.1
  · have hrev : (lineFor b a).reverse
        = a.reverse ++ ([' ', '-', ' '] ++ b.reverse) := by
      unfold lineFor
      rw [show (b ++ ' ' :: '-' :: ' ' :: a)
        = (b ++ [' ', '-', ' ']) ++ a from by simp]
      rw [List.reverse_append, List.reverse_append]
      simp
    rw [hrev]
    refine headNotSpace_append a.reverse _ ?_ hha.2
    intro hh
    exact hane (by simpa using congrArg List.reverse hh)

theorem lineFor_split (b a : PyStr) (hgb : goodN b) (hga : goodN a) :
    splitSep (lineFor b a) = [b, a] := by
  unfold lineFor
  rw [splitSep_append_sep b a hgb.2.2.2]
  rw [sepFree_splitSep a (sepFree_of_append_right a [' '] hga.2.2.2)]

theorem isEmpty_false_of_ne_nil (x : PyStr) (h : x ≠ []) : x.isEmpty = false := by
  cases x with
  | nil => exact absurd rfl h
  | cons c t => rfl

theorem importLine_lineFor (c : Catalog) (n : Nat) (b a : PyStr)
    (hgb : goodN b) (hga : goodN a) :
    importLine (c, n) (lineFor b a)
      = if hasAlbumB c b a = true then (c, n) else (addPair c b a, n + 1) := by
  have hstrip := lineFor_strip b a hgb hga
  have hsplit : splitSep (stripL (lineFor b a)) = [b, a] := by
    rw [hstrip]
    exact lineFor_split b a hgb hga
  have hbe : (stripL b).isEmpty = false := by
    rw [hgb.2.1]
    exact isEmpty_false_of_ne_nil b hgb.1
  have hae : (stripL a).isEmpty = false := by
    rw [hga.2.1]
    exact isEmpty_false_of_ne_nil a hga.1
  by_cases hhas : hasAlbumB c b a = true
  · rw [if_pos hhas]
    have := importLine_present c n (lineFor b a) b a hsplit hbe hae
      (by rwa [hgb.2.1, hga.2.1])
    exact this
  · rw [if_neg hhas]
    rw [Bool.not_eq_true] at hhas
    have := importLine_creates c n (lineFor b a) b a hsplit hbe hae
      (by rwa [hgb.2.1, hga.2.1])
    rwa [hgb.2.1, hga.2.1] at this

theorem addPair_hasAlbum (c : Catalog) (b a b2 a2 : PyStr) :
    hasAlbumB (addPair c b a) b2 a2 = true
      ↔ (hasAlbumB c b2 a2 = true ∨ (b2 = b ∧ a2 = a)) := by
  by_cases h : b2 = b ∧ a2 = a
  · obtain ⟨h1, h2⟩ := h
    subst h1
    subst h2
    unfold hasAlbumB
    rw [addPair_lookup_self]
    simp
  · unfold hasAlbumB
    rw [addPair_lookup_ne c b a b2 a2 h]
    simp [h]

theorem foldl_import_pairs (L : List (PyStr × PyStr)) : ∀ c : Catalog, ∀ n : Nat,
    (∀ p ∈ L, goodN p.1 ∧ goodN p.2) →
    (∀ b2 a2 : PyStr,
      hasAlbumB ((L.map (fun p => lineFor p.1 p.2)).foldl importLine (c, n)).1 b2 a2
        = true ↔ hasAlbumB c b2 a2 = true ∨ (b2, a2) ∈ L) ∧
    (∀ b2 : PyStr,
      hasBandB ((L.map (fun p => lineFor p.1 p.2)).foldl importLine (c, n)).1 b2
        = true ↔ hasBandB c b2 = true ∨ b2 ∈ L.map Prod.fst) ∧
    (L.Nodup → (∀ p ∈ L, hasAlbumB c p.1 p.2 = false) →
      ((L.map (fun p => lineFor p.1 p.2)).foldl importLine (c, n)).2 = n + L.length) := by
  induction L with
  | nil =>
    intro c n _
    exact ⟨fun b2 a2 => by simp, fun b2 => by simp, fun _ _ => by simp⟩
  | cons p L2 ih =>
    intro c n hgood
    obtain ⟨hgb, hga⟩ := hgood p (by simp)
    have hgood2 : ∀ q ∈ L2, goodN q.1 ∧ goodN q.2 :=
      fun q hq => hgood q (by simp [hq])
    rw [List.map_cons, List.foldl_cons,
      importLine_lineFor c n p.1 p.2 hgb hga]
    by_cases hhas : hasAlbumB c p.1 p.2 = true
    · rw [if_pos hhas]
      obtain ⟨ihm, ihb, ihc⟩ := ih c n hgood2
      refine ⟨?_, ?_, ?_⟩
      · intro b2 a2
        rw [ihm b2 a2]
        constructor
        · rintro (h1 | h1)
          · exact Or.inl h1
          · exact Or.inr (List.mem_cons_of_mem p h1)
        · rintro (h1 | h1)
          · exact Or.inl h1
          · rcases List.mem_cons.mp h1 with h2 | h2
            · left
              have hb2 : b2 = p.1 := congrArg Prod.fst h2
              have ha2 : a2 = p.2 := congrArg Prod.snd h2
              rw [hb2, ha2]
              exact hhas
            · exact Or.inr h2
      · intro b2
        rw [ihb b2]
        constructor
        · rintro (h1 | h1)
          · exact Or.inl h1
          · exact Or.inr (by simp [h1])
        · rintro (h1 | h1)
          · exact Or.inl h1
          · rw [List.map_cons] at h1
            rcases List.mem_cons.mp h1 with h2 | h2
            · left
              rw [h2]
              exact hasBand_of_hasAlbum c p.1 p.2 hhas
            · exact Or.inr h2
      · intro hnd habs
        have hfalse := habs p (by simp)
        rw [hfalse] at hhas
        exact absurd hhas (by simp)
    · rw [if_neg hhas]
      rw [Bool.not_eq_true] at hhas
      obtain ⟨ihm, ihb, ihc⟩ := ih (addPair c p.1 p.2) (n + 1) hgood2
      refine ⟨?_, ?_, ?_⟩
      · intro b2 a2
        rw [ihm b2 a2, addPair_hasAlbum c p.1 p.2 b2 a2, List.mem_cons,
          Prod.ext_iff]
        tauto
      · intro b2
        rw [ihb b2, addPair_hasBand c p.1 p.2 b2, List.map_cons, List.mem_cons]
        tauto
      · intro hnd habs
        rcases List.nodup_cons.mp hnd with ⟨hpnot, hnd2⟩
        have habs2 : ∀ q ∈ L2, hasAlbumB (addPair c p.1 p.2) q.1 q.2 = false := by
          intro q hq
          have hne2 : ¬(q.1 = p.1 ∧ q.2 = p.2) := by
            intro hh
            apply hpnot
            have hqp : q = p := Prod.ext hh.1 hh.2
            rw [← hqp]
            exact hq
          unfold hasAlbumB
          rw [addPair_lookup_ne c p.1 p.2 q.1 q.2 hne2]
          exact habs q (by simp [hq])
        rw [ihc hnd2 habs2]
        simp [List.length_cons]
        omega

/-! Claim C2: export then import round trip. -/

theorem exportPairs_good (c : Catalog)
    (hgood : ∀ p ∈ c.bands, goodN p.1 ∧ ∀ q ∈ p.2.albums, goodN q.1) :
    ∀ pr ∈ exportPairs c, goodN pr.1 ∧ goodN pr.2 := by
  intro pr hpr
  have hpr2 : (pr.1, pr.2) ∈ exportPairs c := by rwa [Prod.mk.eta]
  have hhas := (mem_exportPairs c pr.1 pr.2).mp hpr2
  unfold hasAlbumB lookupAlbum at hhas
  cases hlb : alLookup pr.1 c.bands with
  | none => rw [hlb] at hhas; simp at hhas
  | some bd =>
    rw [hlb] at hhas
    have hg1 := hgood (pr.1, bd) (alLookup_eq_some_mem hlb)
    rcases Option.isSome_iff_exists.mp hhas with ⟨al, hal⟩
    exact ⟨hg1.1, hg1.2 (pr.2, al) (alLookup_eq_some_mem hal)⟩

/-- C2 (counterexample): a catalog holding band `A` with no albums
exports the empty text; importing that text into a fresh empty state
yields the empty catalog (band `A` is lost) even though the claim
demands that the original band/album set be reproduced exactly. -/
theorem export_import_roundtrip_cex :
    hasBandB (⟨[("A".data, ⟨[]⟩)]⟩ : Catalog) "A".data = true ∧
    export_collection (⟨[("A".data, ⟨[]⟩)]⟩ : Catalog) = [] ∧
    (import_collection ⟨emptyCatalog, [], []⟩
      (export_collection ⟨[("A".data, ⟨[]⟩)]⟩)).1.catalog = emptyCatalog ∧
    hasBandB (import_collection ⟨emptyCatalog, [], []⟩
      (export_collection ⟨[("A".data, ⟨[]⟩)]⟩)).1.catalog "A".data = false := by
  decide

/-- C2 (amended): for a well-formed catalog in which every band has at
least one album and every band and album name is non-empty,
strip-invariant, newline-free and free of the separator `" - "` (also
when a space is appended, excluding names ending in `" -"`), exporting
and importing into a state holding the empty catalog reproduces the
band set and the (band, album) pair set exactly, and the reported count
of created entries equals the original total album count. -/
theorem export_import_roundtrip (st : AppState) (c : Catalog)
    (hcat : st.catalog = emptyCatalog) (hwf : c.Wf)
    (hne : ∀ p ∈ c.bands, p.2.albums ≠ [])
    (hgood : ∀ p ∈ c.bands, goodN p.1 ∧ ∀ q ∈ p.2.albums, goodN q.1) :
    (∀ b a : PyStr,
      hasAlbumB (import_collection st (export_collection c)).1.catalog b a
        = hasAlbumB c b a) ∧
    (∀ b : PyStr,
      hasBandB (import_collection st (export_collection c)).1.catalog b
        = hasBandB c b) ∧
    (import_collection st (export_collection c)).2 = totalAlbums c := by
  have hgp := exportPairs_good c hgood
  by_cases hcb : c.bands = []
  · have hcEmpty : c = emptyCatalog := by
      cases c
      unfold emptyCatalog
      simp at hcb
      rw [hcb]
    subst hcEmpty
    refine ⟨fun b a => ?_, fun b => ?_, ?_⟩
    · show hasAlbumB ((splitNl (export_collection emptyCatalog)).foldl
        importLine (st.catalog, 0)).1 b a = hasAlbumB emptyCatalog b a
      rw [hcat]
      rfl
    · show hasBandB ((splitNl (export_collection emptyCatalog)).foldl
        importLine (st.catalog, 0)).1 b = hasBandB emptyCatalog b
      rw [hcat]
      rfl
    · show ((splitNl (export_collection emptyCatalog)).foldl
        importLine (st.catalog, 0)).2 = totalAlbums emptyCatalog
      rw [hcat]
      rfl
  · have hlines : splitNl (export_collection c) = export_lines c := by
      unfold export_collection
      refine splitNl_joinNl (export_lines c) ?_ ?_
      · intro l2 hl2
        rw [export_lines_eq] at hl2
        rcases List.mem_map.mp hl2 with ⟨pr, hpr, heq⟩
        obtain ⟨hg1, hg2⟩ := hgp pr hpr
        rw [← heq]
        exact lineFor_nl_free pr.1 pr.2 hg1.2.2.1 hg2.2.2.1
      · rw [export_lines_eq]
        intro hnil
        have hpairs : exportPairs c = [] := by
          cases hpe : exportPairs c with
          | nil => rfl
          | cons x xs => rw [hpe] at hnil; simp at hnil
        cases hcb2 : c.bands with
        | nil => exact hcb hcb2
        | cons p rest =>
          have hpmem : p ∈ c.bands := by rw [hcb2]; simp
          cases hal : p.2.albums with
          | nil => exact hne p hpmem hal
          | cons q qrest =>
            have hqmem : q ∈ p.2.albums := by rw [hal]; simp
            have hhasalb : hasAlbumB c p.1 q.1 = true := by
              unfold hasAlbumB lookupAlbum
              rw [alLookup_of_mem hwf.1 (by rwa [Prod.mk.eta])]
              exact (alLookup_isSome_iff q.1 p.2.albums).mpr
                (List.mem_map_of_mem Prod.fst hqmem)
            have hmem2 := (mem_exportPairs c p.1 q.1).mpr hhasalb
            rw [hpairs] at hmem2
            simp at hmem2
    have hFL : splitNl (export_collection c)
        = (exportPairs c).map (fun p => lineFor p.1 p.2) := by
      rw [hlines, export_lines_eq]
    obtain ⟨ihm, ihb, ihc⟩ := foldl_import_pairs (exportPairs c) emptyCatalog 0 hgp
    have hcatEq : (import_collection st (export_collection c)).1.catalog
        = (((exportPairs c).map (fun p => lineFor p.1 p.2)).foldl
            importLine (emptyCatalog, 0)).1 := by
      show ((splitNl (export_collection c)).foldl importLine (st.catalog, 0)).1 = _
      rw [hFL, hcat]
    have hcntEq : (import_collection st (export_collection c)).2
        = (((exportPairs c).map (fun p => lineFor p.1 p.2)).foldl
            importLine (emptyCatalog, 0)).2 := by
      show ((splitNl (export_collection c)).foldl importLine (st.catalog, 0)).2 = _
      rw [hFL, hcat]
    refine ⟨?_, ?_, ?_⟩
    · intro b a
      apply bool_eq_of_iff
      rw [hcatEq, ihm b a]
      constructor
      · rintro (h1 | h1)
        · rw [show hasAlbumB emptyCatalog b a = false from rfl] at h1
          simp at h1
        · exact (mem_exportPairs c b a).mp h1
      · intro h1
        exact Or.inr ((mem_exportPairs c b a).mpr h1)
    · intro b
      apply bool_eq_of_iff
      rw [hcatEq, ihb b]
      constructor
      · rintro (h1 | h1)
        · rw [show hasBandB emptyCatalog b = false from rfl] at h1
          simp at h1
        · rcases List.mem_map.mp h1 with ⟨pr, hpr, heq⟩
          have hpr2 : (pr.1, pr.2) ∈ exportPairs c := by rwa [Prod.mk.eta]
          have hhasalb := (mem_exportPairs c pr.1 pr.2).mp hpr2
          rw [← heq]
          exact hasBand_of_hasAlbum c pr.1 pr.2 hhasalb
      · intro h1
        right
        unfold hasBandB at h1
        rcases Option.isSome_iff_exists.mp h1 with ⟨bd, hbd⟩
        have hbmem := alLookup_eq_some_mem hbd
        cases hal : bd.albums with
        | nil => exact absurd hal (hne (b, bd) hbmem)
        | cons q qrest =>
          have hqmem : q ∈ bd.albums := by rw [hal]; simp
          have hhasalb : hasAlbumB c b q.1 = true := by
            unfold hasAlbumB lookupAlbum
            rw [hbd]
            exact (alLookup_isSome_iff q.1 bd.albums).mpr
              (List.mem_map_of_mem Prod.fst hqmem)
          have hp2 := (mem_exportPairs c b q.1).mpr hhasalb
          exact List.mem_map.mpr ⟨(b, q.1), hp2, rfl⟩
    · rw [hcntEq]
      rw [ihc (nodup_exportPairs c hwf) (fun p hp => rfl)]
      rw [length_exportPairs c hwf]
      omega

/-- C2 (witness): the round-trip theorem applied to a concrete two-band
catalog: importing its export into a fresh empty state reports a count
equal to its total album count. -/
theorem export_import_roundtrip_witness :
    (import_collection ⟨emptyCatalog, [], []⟩
      (export_collection ⟨[("B".data, ⟨[("A2".data, ⟨none⟩), ("A1".data, ⟨none⟩)]⟩),
        ("A".data, ⟨[("Z".data, ⟨none⟩)]⟩)]⟩)).2
    = totalAlbums ⟨[("B".data, ⟨[("A2".data, ⟨none⟩), ("A1".data, ⟨none⟩)]⟩),
        ("A".data, ⟨[("Z".data, ⟨none⟩)]⟩)]⟩ :=
  (export_import_roundtrip ⟨emptyCatalog, [], []⟩
    ⟨[("B".data, ⟨[("A2".data, ⟨none⟩), ("A1".data, ⟨none⟩)]⟩),
      ("A".data, ⟨[("Z".data, ⟨none⟩)]⟩)]⟩
    rfl (by decide) (by decide) (by decide)).2.2

/-! Claim C5: the import parser and its bookkeeping. -/

/-- C5: import strips each line and skips empty ones; a line is applied
only when it splits on the separator into exactly two parts whose
stripped forms are non-empty; skipped lines change neither the catalog
nor the count; an already-present pair leaves the catalog and count
unchanged; a new pair creates the band when absent and the album with an
absent image, increments the count by one, and touches no other entry;
at the end the file list is untouched, the catalog is persisted exactly
once, and the total album count has grown by exactly the returned count
of newly created entries. -/
theorem import_collection_spec :
    (∀ c : Catalog, ∀ n : Nat, ∀ l : PyStr,
      (stripL l).isEmpty = true → importLine (c, n) l = (c, n)) ∧
    (∀ c : Catalog, ∀ n : Nat, ∀ l : PyStr,
      (∀ b0 a0 : PyStr, splitSep (stripL l) ≠ [b0, a0]) →
      importLine (c, n) l = (c, n)) ∧
    (∀ c : Catalog, ∀ n : Nat, ∀ l b0 a0 : PyStr,
      splitSep (stripL l) = [b0, a0] →
      ((stripL b0).isEmpty = true ∨ (stripL a0).isEmpty = true) →
      importLine (c, n) l = (c, n)) ∧
    (∀ c : Catalog, ∀ n : Nat, ∀ l b0 a0 : PyStr,
      splitSep (stripL l) = [b0, a0] →
      (stripL b0).isEmpty = false → (stripL a0).isEmpty = false →
      hasAlbumB c (stripL b0) (stripL a0) = true →
      importLine (c, n) l = (c, n)) ∧
    (∀ c : Catalog, ∀ n : Nat, ∀ l b0 a0 : PyStr,
      splitSep (stripL l) = [b0, a0] →
      (stripL b0).isEmpty = false → (stripL a0).isEmpty = false →
      hasAlbumB c (stripL b0) (stripL a0) = false →
      (importLine (c, n) l).2 = n + 1 ∧
      lookupAlbum (importLine (c, n) l).1 (stripL b0) (stripL a0) = some ⟨none⟩ ∧
      (∀ b2 a2 : PyStr, ¬(b2 = stripL b0 ∧ a2 = stripL a0) →
        lookupAlbum (importLine (c, n) l).1 b2 a2 = lookupAlbum c b2 a2)) ∧
    (∀ st : AppState, ∀ content : PyStr,
      (import_collection st content).1.fs = st.fs ∧
      (import_collection st content).1.saves
        = st.saves ++ [(import_collection st content).1.catalog] ∧
      totalAlbums (import_collection st content).1.catalog
        = totalAlbums st.catalog + (import_collection st content).2) := by
  refine ⟨importLine_empty_line, importLine_not_two_parts, importLine_empty_part,
    importLine_present, ?_, ?_⟩
  · intro c n l b0 a0 hs hb ha hhas
    rw [importLine_creates c n l b0 a0 hs hb ha hhas]
    exact ⟨rfl, addPair_lookup_self c (stripL b0) (stripL a0),
      fun b2 a2 hne => addPair_lookup_ne c (stripL b0) (stripL a0) b2 a2 hne⟩
  · intro st content
    refine ⟨rfl, rfl, ?_⟩
    have := foldl_importLine_total (splitNl content) st.catalog 0
    show totalAlbums ((splitNl content).foldl importLine (st.catalog, 0)).1
      = totalAlbums st.catalog + ((splitNl content).foldl importLine (st.catalog, 0)).2
    omega

/-- C5 (witness): the import theorem applied to concrete lines: the
separator-free line `OnlyOnePart` is skipped, and the line `A - B`
applied to the empty catalog creates one new entry; the concrete import
of those two lines persists once and reports a count of one. -/
theorem import_collection_spec_witness :
    importLine (emptyCatalog, 0) "OnlyOnePart".data = (emptyCatalog, 0) ∧
    (importLine (emptyCatalog, 0) "A - B".data).2 = 0 + 1 ∧
    importLine (⟨[("A".data, ⟨[("B".data, ⟨none⟩)]⟩)]⟩, 5) "A - B".data
      = (⟨[("A".data, ⟨[("B".data, ⟨none⟩)]⟩)]⟩, 5) ∧
    (import_collection ⟨emptyCatalog, [], []⟩ "OnlyOnePart\nA - B".data).1.saves
      = [(import_collection ⟨emptyCatalog, [], []⟩ "OnlyOnePart\nA - B".data).1.catalog] ∧
    totalAlbums (import_collection ⟨emptyCatalog, [], []⟩
        "OnlyOnePart\nA - B".data).1.catalog
      = totalAlbums emptyCatalog
        + (import_collection ⟨emptyCatalog, [], []⟩ "OnlyOnePart\nA - B".data).2 :=
  ⟨import_collection_spec.2.1 emptyCatalog 0 "OnlyOnePart".data
    (by
      intro b0 a0 h
      rw [show splitSep (stripL "OnlyOnePart".data) = ["OnlyOnePart".data]
        from by decide] at h
      simp at h),
   (import_collection_spec.2.2.2.2.1 emptyCatalog 0 "A - B".data "A".data "B".data
    (by decide) (by decide) (by decide) (by decide)).1,
   import_collection_spec.2.2.2.1 ⟨[("A".data, ⟨[("B".data, ⟨none⟩)]⟩)]⟩ 5
    "A - B".data "A".data "B".data (by decide) (by decide) (by decide) (by decide),
   (import_collection_spec.2.2.2.2.2 ⟨emptyCatalog, [], []⟩
     "OnlyOnePart\nA - B".data).2.1,
   (import_collection_spec.2.2.2.2.2 ⟨emptyCatalog, [], []⟩
     "OnlyOnePart\nA - B".data).2.2⟩
